import Mathlib

/-!
Verification of the WHAM engine specification against its Rust source.

The development contains shallow embeddings of the relevant source
functions:

* `Fq` is an executable model of IEEE-754 double values whose finite
  values are represented exactly by rationals: it tracks the special
  values NaN and the two infinities, which several claims hinge on
  (division-by-zero behaviour, NaN-poisoned comparisons).  Rounding is
  not modelled; all arithmetic on finite values is exact.
* `statistics` / `correlation_analysis` model `src/statistics.rs` and
  `src/correlation_analysis.rs` over `Fq`.
* `uncorr` models the `uncorrelate` subsampling of `src/io.rs`.
* `whamfq` models `calc_bin_probability` of `src/lib.rs` over `Fq`.
* `ioq` models `flat_index`, `expand_index`, `is_in_hist_boundaries`,
  `build_histogram_from_timeseries` (`src/io.rs`, `src/histogram.rs`)
  and `generate_random_weights` (`src/error_analysis.rs`) over ℚ.
* `wham` models the fixed-point solver of `src/lib.rs` over ℝ
  (real division, with the Mathlib convention `x / 0 = 0`; divergences
  from IEEE where they matter for a claim are treated in the `Fq`
  models).
* `freeE` models `calc_free_energy` of `src/lib.rs` over ℝ extended
  with the special values, because the `+∞` produced by `ln 0` is the
  subject of a claim.
-/

namespace Fq64

/-- An IEEE-754 style double value: an exact finite rational, one of the
two infinities, or NaN.  The sign of zero is not tracked (all zeros that
arise in the modelled code paths are `+0`). -/
inductive Fq where
  | fin (q : ℚ)
  | pinf
  | ninf
  | nan
  deriving DecidableEq, Repr

namespace Fq

/-- IEEE addition. -/
def fadd : Fq → Fq → Fq
  | fin a, fin b => fin (a + b)
  | fin _, pinf => pinf
  | fin _, ninf => ninf
  | pinf, fin _ => pinf
  | ninf, fin _ => ninf
  | pinf, pinf => pinf
  | ninf, ninf => ninf
  | pinf, ninf => nan
  | ninf, pinf => nan
  | nan, _ => nan
  | _, nan => nan

/-- IEEE subtraction. -/
def fsub : Fq → Fq → Fq
  | fin a, fin b => fin (a - b)
  | fin _, pinf => ninf
  | fin _, ninf => pinf
  | pinf, fin _ => pinf
  | ninf, fin _ => ninf
  | pinf, pinf => nan
  | ninf, ninf => nan
  | pinf, ninf => pinf
  | ninf, pinf => ninf
  | nan, _ => nan
  | _, nan => nan

/-- IEEE multiplication (`0 · ∞ = NaN`). -/
def fmul : Fq → Fq → Fq
  | fin a, fin b => fin (a * b)
  | fin a, pinf => if a > 0 then pinf else if a < 0 then ninf else nan
  | fin a, ninf => if a > 0 then ninf else if a < 0 then pinf else nan
  | pinf, fin b => if b > 0 then pinf else if b < 0 then ninf else nan
  | ninf, fin b => if b > 0 then ninf else if b < 0 then pinf else nan
  | pinf, pinf => pinf
  | ninf, ninf => pinf
  | pinf, ninf => ninf
  | ninf, pinf => ninf
  | nan, _ => nan
  | _, nan => nan

/-- IEEE division restricted to `+0` zeros: `0/0 = NaN`, `x/0 = ±∞` for
finite nonzero `x`. -/
def fdiv : Fq → Fq → Fq
  | fin a, fin b =>
      if b = 0 then (if a = 0 then nan else if a > 0 then pinf else ninf)
      else fin (a / b)
  | fin _, pinf => fin 0
  | fin _, ninf => fin 0
  | pinf, fin b => if b < 0 then ninf else pinf
  | ninf, fin b => if b < 0 then pinf else ninf
  | pinf, pinf => nan
  | pinf, ninf => nan
  | ninf, pinf => nan
  | ninf, ninf => nan
  | nan, _ => nan
  | _, nan => nan

/-- IEEE `<` as a Bool: any comparison involving NaN is `false`. -/
def flt : Fq → Fq → Bool
  | fin a, fin b => decide (a < b)
  | fin _, pinf => true
  | fin _, ninf => false
  | pinf, _ => false
  | ninf, fin _ => true
  | ninf, pinf => true
  | ninf, ninf => false
  | nan, _ => false
  | _, nan => false

/-- IEEE `≤` as a Bool: any comparison involving NaN is `false`. -/
def fle : Fq → Fq → Bool
  | fin a, fin b => decide (a ≤ b)
  | fin _, pinf => true
  | fin _, ninf => false
  | pinf, pinf => true
  | pinf, _ => false
  | ninf, _ => true
  | nan, _ => false
  | _, nan => false

/-- IEEE `>` as a Bool. -/
def fgt (a b : Fq) : Bool := flt b a

/-- IEEE absolute value. -/
def fabs : Fq → Fq
  | fin a => fin |a|
  | pinf => pinf
  | ninf => pinf
  | nan => nan

/-- Sum of a list of values, folding `+` from `0.0` in order, as Rust's
`Iterator::sum::<f64>()` does. -/
def fqsum (l : List Fq) : Fq := l.foldl fadd (fin 0)

/-- Rust's `f64::trunc()` followed by `as usize` (toward-zero rounding,
then saturating cast: negatives to 0, `+∞` to `usize::MAX`, NaN to 0). -/
def ftruncUsize : Fq → ℕ
  | fin q => if 0 ≤ q then (⌊q⌋).toNat else 0
  | pinf => 2 ^ 64 - 1
  | ninf => 0
  | nan => 0

end Fq

end Fq64

namespace statistics

open Fq64 Fq64.Fq

/-- Model of `statistics::mean` from `src/statistics.rs`:
`x.iter().sum::<f64>() / x.len() as f64`. -/
def mean (x : List ℚ) : Fq := fdiv (fin x.sum) (fin x.length)

/-- Model of `statistics::autocov` from `src/statistics.rs`: the biased
autocovariance `(Σ (xᵢ − μ)²) / N`. -/
def autocov (x : List ℚ) : Fq :=
  let x_mean := mean x
  fdiv (fqsum (x.map (fun xi => fmul (fsub (fin xi) x_mean) (fsub (fin xi) x_mean))))
    (fin x.length)

end statistics

namespace correlation_analysis

open Fq64 Fq64.Fq

/-- Model of `autocorrelation` from `src/correlation_analysis.rs`.  For lag
`t ∈ 1..(n-1)` it computes
`C(t) = (Σ 2·dᵢ·d_{i+t}) / (2·(n−t)·σ²)` where `d` are the deviations
from the mean.  (For `n = 0` the Rust code aborts on an arithmetic
underflow of `n - 1`; the model returns the empty list there.) -/
def autocorrelation (timeseries : List ℚ) : List Fq :=
  let n := timeseries.length
  let m := statistics.mean timeseries
  let d_mean := timeseries.map (fun x => fsub (fin x) m)
  let cov := statistics.autocov timeseries
  (List.range' 1 (n - 2)).map (fun t =>
    let tmp := ((d_mean.take (n - t)).zip (d_mean.drop t)).map (fun p => fmul p.1 p.2)
    fdiv (fqsum (tmp.map (fun x => fadd x x)))
      (fmul (fmul (fin 2) (fin ((n : ℚ) - (t : ℚ)))) cov))

/-- The accumulation loop of `statistical_ineff`: for each lag `t`, stop
at the first `c ≤ 0.0` (note: `false` for NaN `c`), otherwise add
`2·c·(1 − t/n)` to `g`. -/
def ineffGo (autocorr : List Fq) (n : ℕ) : List ℕ → Fq → Fq
  | [], g => g
  | t :: ts, g =>
      let c := autocorr.getD (t - 1) nan
      if fle c (fin 0) then g
      else ineffGo autocorr n ts
        (fadd g (fmul (fmul (fin 2) c) (fsub (fin 1) (fdiv (fin (t : ℚ)) (fin (n : ℚ))))))

/-- Model of `statistical_ineff` from `src/correlation_analysis.rs`: `g` starts
at `1.0`, accumulates `2·C(t)·(1 − t/n)` over lags `t ∈ 1..(n-1)`
stopping at the first `C(t) ≤ 0`, and is finally clamped from below by
`1.0` via `if g < 1.0 { 1.0 } else { g }`. -/
def statistical_ineff (timeseries : List ℚ) : Fq :=
  let n := timeseries.length
  let autocorr := autocorrelation timeseries
  let g := ineffGo autocorr n (List.range' 1 (n - 2)) (fin 1)
  if flt g (fin 1) then fin 1 else g

end correlation_analysis

namespace uncorr

open Fq64 Fq64.Fq

/-- The state machine of Rust's `Iterator::step_by(k)`: emit the next
element when the skip counter is `0` (resetting it to `k − 1`),
otherwise skip it and decrement. -/
def stepByGo (k : ℕ) : List α → ℕ → List α
  | [], _ => []
  | a :: rest, 0 => a :: stepByGo k rest (k - 1)
  | _ :: rest, c + 1 => stepByGo k rest c

/-- Rust's `Iterator::step_by(k)`: keep every `k`-th element, starting
with the first.  (`step_by(0)` aborts in Rust; the model is only ever
used with `k ≥ 1`, where `stepBy` is its faithful translation.) -/
def stepBy (k : ℕ) (l : List α) : List α := stepByGo k l 0

/-- The `max_g` computation of `uncorrelate` in `src/io.rs`: per-column
statistical inefficiencies of `timeseries[1..]`, folded with
`if g > max_g { max_g = g }` from `1.0` (NaN entries never win). -/
def maxG (timeseries : List (List ℚ)) : Fq :=
  let gs := (timeseries.drop 1).map correlation_analysis.statistical_ineff
  gs.foldl (fun max_g g => if fgt g max_g then g else max_g) (fin 1)

/-- The stride computation of `uncorrelate` in `src/io.rs`:
`trunc_g = max_g.trunc() as usize`, incremented when
`(trunc_g as f64 - max_g).abs() > 0.000_000_000_1`. -/
def strideOf (timeseries : List (List ℚ)) : ℕ :=
  let max_g := maxG timeseries
  let trunc_g := ftruncUsize max_g
  if fgt (fabs (fsub (fin (trunc_g : ℚ)) max_g)) (fin (1 / 10000000000)) then
    trunc_g + 1
  else trunc_g

/-- Model of `uncorrelate` from `src/io.rs` (the subsampling part): every row of
the time series is filtered with `step_by(trunc_g)`. -/
def uncorrelate (timeseries : List (List ℚ)) : List (List ℚ) :=
  timeseries.map (stepBy (strideOf timeseries))

end uncorr

namespace whamfq

open Fq64 Fq64.Fq

/-- One window's histogram (`src/histogram.rs`): total observation count
and per-bin counts. -/
structure Histogram where
  num_points : ℕ
  bins : List ℚ
  deriving DecidableEq, Repr

instance : Inhabited Histogram := ⟨⟨0, []⟩⟩

/-- The fields of `Dataset` (`src/histogram.rs`) that
`calc_bin_probability` reads.  The `bias` table is the precomputed
Boltzmann-factor cache, kept as data exactly as in the struct. -/
structure Dataset where
  num_bins : ℕ
  histograms : List Histogram
  bias : List ℚ
  weights : List ℚ
  deriving DecidableEq, Repr

/-- Model of `Dataset::get_bias`: `bias[window * num_bins + bin]`. -/
def Dataset.get_bias (ds : Dataset) (bin window : ℕ) : ℚ :=
  ds.bias.getD (window * ds.num_bins + bin) 0

/-- Model of `Dataset::get_weighted_bin_count`:
`Σ_w weights[w] · histograms[w].bins[bin]`. -/
def Dataset.get_weighted_bin_count (ds : Dataset) (bin : ℕ) : Fq :=
  fqsum ((List.range ds.histograms.length).map (fun idx =>
    fmul (fin (ds.weights.getD idx 0))
      (fin ((ds.histograms.getD idx default).bins.getD bin 0))))

/-- The `denom_sum` accumulation inside `calc_bin_probability`
(`src/lib.rs`): `Σ_w (weights[w] · N_w) · bias[w,bin] · F[w]`, folded
from `0.0` in window order. -/
def denomSum (ds : Dataset) (bin : ℕ) (F : List Fq) : Fq :=
  (List.range ds.histograms.length).foldl (fun acc window =>
    fadd acc (fmul (fmul
      (fin (ds.weights.getD window 0 * ((ds.histograms.getD window default).num_points : ℚ)))
      (fin (ds.get_bias bin window)))
      (F.getD window nan))) (fin 0)

/-- Model of `calc_bin_probability` from `src/lib.rs`: the weighted bin count
divided by `denom_sum`, with no guard on a zero denominator. -/
def calc_bin_probability (bin : ℕ) (ds : Dataset) (F : List Fq) : Fq :=
  fdiv (ds.get_weighted_bin_count bin) (denomSum ds bin F)

end whamfq

namespace ioq

/-- Model of `flat_index` from `src/io.rs`: multi-index `(i₀,…,i_{D−1})` maps to
`Σ_d i_d · Π_{k<d} L_k` (`indeces.iter().enumerate().map(|(i, idx)|
idx * lengths.iter().take(i).product()).sum()`). -/
def flat_index (indeces lengths : List ℕ) : ℕ :=
  ((List.range indeces.length).map (fun i =>
    indeces.getD i 0 * (lengths.take i).prod)).sum

/-- The loop of `Dataset::expand_index` (`src/histogram.rs`) running
`dimen` from the given value down to `1`: returns the index entries for
dimensions `1..=dimen` (in increasing dimension order) together with the
remaining `tmp`. -/
def expandGo (lengths : List ℕ) : ℕ → ℕ → List ℕ × ℕ
  | 0, tmp => ([], tmp)
  | d + 1, tmp =>
      let denom := (lengths.take (d + 1)).prod
      let q := tmp / denom
      let rt := expandGo lengths d (tmp % denom)
      (rt.1 ++ [q], rt.2)

/-- Model of `Dataset::expand_index` from `src/histogram.rs`: peel off the
highest dimension first by division and remainder with `Π_{k<d} L_k`, the
final remainder becomes `idx[0]`.  (For `lengths = []` the Rust code
aborts on `idx[0]`; the claims only concern `D ≥ 1`.) -/
def expand_index (bin : ℕ) (lengths : List ℕ) : List ℕ :=
  let rt := expandGo lengths (lengths.length - 1) bin
  rt.2 :: rt.1

/-- The histogram-grid configuration fields of `Config` (`src/lib.rs`)
read by the histogram builder. -/
structure HistCfg where
  dimens : ℕ
  hist_min : List ℚ
  hist_max : List ℚ
  num_bins : List ℕ
  deriving DecidableEq, Repr

/-- Model of `is_in_hist_boundaries` from `src/io.rs`: false iff some dimension
has `values[d] < hist_min[d] || values[d] >= hist_max[d]`. -/
def is_in_hist_boundaries (values : List ℚ) (cfg : HistCfg) : Bool :=
  (List.range cfg.dimens).all (fun dimen =>
    !(decide (values.getD dimen 0 < cfg.hist_min.getD dimen 0) ||
      decide (cfg.hist_max.getD dimen 0 ≤ values.getD dimen 0)))

/-- Rust's `as usize` cast of a finite f64: truncation toward zero,
saturating at `0` for negative values. -/
def ratAsUsize (q : ℚ) : ℕ := if 0 ≤ q then (⌊q⌋).toNat else 0

/-- The per-dimension bin widths `(hist_max[d] − hist_min[d]) /
num_bins[d]` computed in `build_histogram_from_timeseries`. -/
def binWidths (cfg : HistCfg) : List ℚ :=
  (List.range cfg.dimens).map (fun idx =>
    (cfg.hist_max.getD idx 0 - cfg.hist_min.getD idx 0) / (cfg.num_bins.getD idx 0 : ℚ))

/-- The body of the sample loop in `build_histogram_from_timeseries`
(`src/io.rs`) for sample `i`: gather `values`, test the boundaries,
compute the per-dimension bin indices, flatten, and increment that bin. -/
def histStep (timeseries : List (List ℚ)) (cfg : HistCfg) (hist : List ℚ) (i : ℕ) :
    List ℚ :=
  let values := (List.range (cfg.dimens + 1)).map (fun j => (timeseries.getD j []).getD i 0)
  if is_in_hist_boundaries (values.drop 1) cfg then
    let bin_indeces := (List.range cfg.dimens).map (fun dimen =>
      ratAsUsize ((values.getD (dimen + 1) 0 - cfg.hist_min.getD dimen 0) /
        (binWidths cfg).getD dimen 0))
    let index := flat_index bin_indeces cfg.num_bins
    hist.set index (hist.getD index 0 + 1)
  else hist

/-- Model of `build_histogram_from_timeseries` from `src/io.rs`: iterate over the
mask-selected sample indices, bin each in-boundary sample, and finally
set `num_points` to the sum of the bins (cast to an integer). -/
def build_histogram_from_timeseries (timeseries : List (List ℚ)) (mask : List Bool)
    (cfg : HistCfg) : whamfq.Histogram :=
  let total_bins := cfg.num_bins.prod
  let hist :=
    (((List.range ((timeseries.getD 0 []).length)).filter (fun i => mask.getD i false))).foldl
      (histStep timeseries cfg) (List.replicate total_bins 0)
  whamfq.Histogram.mk (Int.toNat ⌊hist.sum⌋) hist

/-- Model of `generate_random_weights` from `src/error_analysis.rs`.  The
`num_windows − 1` uniform draws produced by the seeded RNG are taken as
an input list (`rng.gen::<f64>()` yields values in `[0,1)`); they are
sorted ascending, `0` is prepended and `1` appended, and the weights are
the consecutive differences. -/
def generate_random_weights (num_windows : ℕ) (draws : List ℚ) : List ℚ :=
  let tmp := draws.mergeSort
  let rnds := 0 :: (tmp ++ [1])
  (List.range num_windows).map (fun i => rnds.getD (i + 1) 0 - rnds.getD i 0)

end ioq

namespace wham

open scoped Classical

/-- One window's histogram (`src/histogram.rs`), real-valued model. -/
structure Histogram where
  num_points : ℕ
  bins : List ℝ

instance : Inhabited Histogram := ⟨⟨0, []⟩⟩

/-- The fields of `Dataset` (`src/histogram.rs`) read by the solver.
`bias` is the precomputed Boltzmann-factor cache `bias[w·num_bins + b]`,
kept as data exactly as in the struct. -/
structure Dataset where
  num_windows : ℕ
  num_bins : ℕ
  kT : ℝ
  histograms : List Histogram
  bias : List ℝ
  weights : List ℝ

/-- The fields of `Config` (`src/lib.rs`) read by `perform_wham`. -/
structure Config where
  tolerance : ℝ
  max_iterations : ℕ

/-- Model of `Dataset::get_bias`: `bias[window * num_bins + bin]`. -/
noncomputable def Dataset.get_bias (ds : Dataset) (bin window : ℕ) : ℝ :=
  ds.bias.getD (window * ds.num_bins + bin) 0

/-- Model of `Dataset::get_weighted_bin_count`:
`Σ_w weights[w] · histograms[w].bins[bin]`. -/
noncomputable def Dataset.get_weighted_bin_count (ds : Dataset) (bin : ℕ) : ℝ :=
  ((List.range ds.histograms.length).map (fun idx =>
    ds.weights.getD idx 0 * ((ds.histograms.getD idx default).bins.getD bin 0))).sum

/-- Model of `is_converged` from `src/lib.rs`: not
(`new_F.zip(old_F).map(|x| (x.0-x.1).abs()).any(|diff| diff > tolerance)`). -/
def is_converged (old_F new_F : List ℝ) (tolerance : ℝ) : Prop :=
  ¬ ∃ p ∈ new_F.zip old_F, |p.1 - p.2| > tolerance

/-- Model of `calc_bin_probability` from `src/lib.rs` (real-valued model):
weighted bin count over `Σ_w (weights[w] · N_w) · bias[w,b] · F[w]`.
The division is the Mathlib real division (so `0/0 = 0` here; the IEEE
behaviour of the unguarded division is treated in the `whamfq` model). -/
noncomputable def calc_bin_probability (bin : ℕ) (ds : Dataset) (F : List ℝ) : ℝ :=
  let bin_count := ds.get_weighted_bin_count bin
  let denom_sum := ((List.range ds.histograms.length).map (fun window =>
    (ds.weights.getD window 0 * ((ds.histograms.getD window default).num_points : ℝ)) *
      ds.get_bias bin window * F.getD window 0)).sum
  bin_count / denom_sum

/-- Model of `calc_window_F` from `src/lib.rs`:
`1 / Σ_{(bin,p) ∈ (0..num_bins).zip(P)} p · bias[w,bin]`. -/
noncomputable def calc_window_F (window : ℕ) (ds : Dataset) (P : List ℝ) : ℝ :=
  let f := (((List.range ds.num_bins).zip P).map (fun bp =>
    bp.2 * ds.get_bias bp.1 window)).sum
  1 / f

/-- Model of `perform_wham_iteration` from `src/lib.rs`: compute the new `P`
from `F_prev`, then the new `F` from the new `P`; returns `(P, F)`. -/
noncomputable def perform_wham_iteration (ds : Dataset) (F_prev : List ℝ) :
    List ℝ × List ℝ :=
  let P := (List.range ds.num_bins).map (fun bin => calc_bin_probability bin ds F_prev)
  let F := (List.range ds.num_windows).map (fun window => calc_window_F window ds P)
  (P, F)

/-- The convergence-check transformation `-kT * f.ln()` applied to the
`F` vectors before `is_converged` (`src/lib.rs`). -/
noncomputable def fkT (ds : Dataset) (f : ℝ) : ℝ := -ds.kT * Real.log f

/-- The `while !converged && iteration < max_iterations` loop of
`perform_wham` (`src/lib.rs`), as fuel recursion with
`fuel = max_iterations − iteration`.  State: `(iteration, F, P,
F_prev)`; `converged` is set only at iterations divisible by 10. -/
noncomputable def whamLoop (ds : Dataset) (tolerance : ℝ) :
    ℕ → ℕ → Prop → List ℝ → List ℝ → List ℝ → ℕ × List ℝ × List ℝ × List ℝ
  | 0, iteration, _, F, P, F_prev => (iteration, F, P, F_prev)
  | fuel + 1, iteration, converged, F, P, F_prev =>
      if converged then (iteration, F, P, F_prev)
      else
        let iteration' := iteration + 1
        let F_prev' := F
        let PF := perform_wham_iteration ds F_prev'
        let converged' :=
          if iteration' % 10 = 0 then
            is_converged (F_prev'.map (fkT ds)) (PF.2.map (fkT ds)) tolerance
          else False
        whamLoop ds tolerance fuel iteration' converged' PF.2 PF.1 F_prev'

/-- Model of `perform_wham` from `src/lib.rs`.  `F` starts as ones; `P` and
`F_prev` start as NaN placeholder vectors overwritten in the first
iteration (modelled by zeros — they are only observable when
`max_iterations = 0`, where the result is the error anyway).  After the
loop `P` is normalised by its sum, and reaching `max_iterations` is the
convergence error (`None`). -/
noncomputable def perform_wham (cfg : Config) (ds : Dataset) :
    Option (List ℝ × List ℝ × List ℝ) :=
  let r := whamLoop ds cfg.tolerance cfg.max_iterations 0 False
    (List.replicate ds.num_windows 1) (List.replicate ds.num_bins 0)
    (List.replicate ds.num_windows 0)
  let P_sum := r.2.2.1.sum
  let P := r.2.2.1.map (fun p => p / P_sum)
  if r.1 = cfg.max_iterations then none else some (P, r.2.1, r.2.2.2)

/-- The deterministic trajectory of `F` vectors produced by iterating
`perform_wham_iteration` from the all-ones initial `F`. -/
noncomputable def Fseq (ds : Dataset) : ℕ → List ℝ
  | 0 => List.replicate ds.num_windows 1
  | n + 1 => (perform_wham_iteration ds (Fseq ds n)).2

/-- The trajectory of `P` vectors (`Pseq 0` is the initial placeholder
vector). -/
noncomputable def Pseq (ds : Dataset) : ℕ → List ℝ
  | 0 => List.replicate ds.num_bins 0
  | n + 1 => (perform_wham_iteration ds (Fseq ds n)).1

/-- The convergence criterion as evaluated by the code at iteration `k`:
`is_converged` on the `-kT ln` transforms of `F_{k−1}` and `F_k`. -/
noncomputable def convCrit (ds : Dataset) (tolerance : ℝ) (k : ℕ) : Prop :=
  is_converged ((Fseq ds (k - 1)).map (fkT ds)) ((Fseq ds k).map (fkT ds)) tolerance

/-- Iteration `k` is a passing convergence check: it is a multiple of 10
and the criterion holds there. -/
noncomputable def chkP (ds : Dataset) (tolerance : ℝ) (k : ℕ) : Prop :=
  k % 10 = 0 ∧ convCrit ds tolerance k

/-- The iteration at which the solver loop exits, starting from
iteration `it` with the given remaining fuel: the first passing check in
`(it, it+fuel]`, or `it+fuel` if there is none. -/
noncomputable def exitIter (ds : Dataset) (tolerance : ℝ) : ℕ → ℕ → ℕ
  | 0, it => it
  | fuel + 1, it =>
      if chkP ds tolerance (it + 1) then it + 1 else exitIter ds tolerance fuel (it + 1)

end wham

namespace freeE

open scoped Classical

/-- An IEEE-754 style double value over exact reals: finite real,
infinities, or NaN. -/
inductive Xt where
  | fin (x : ℝ)
  | pinf
  | ninf
  | nan

namespace Xt

/-- IEEE multiplication (only signs matter for the infinite cases). -/
noncomputable def xmul : Xt → Xt → Xt
  | fin a, fin b => fin (a * b)
  | fin a, pinf => if a > 0 then pinf else if a < 0 then ninf else nan
  | fin a, ninf => if a > 0 then ninf else if a < 0 then pinf else nan
  | pinf, fin b => if b > 0 then pinf else if b < 0 then ninf else nan
  | ninf, fin b => if b > 0 then ninf else if b < 0 then pinf else nan
  | pinf, pinf => pinf
  | ninf, ninf => pinf
  | pinf, ninf => ninf
  | ninf, pinf => ninf
  | nan, _ => nan
  | _, nan => nan

/-- IEEE subtraction. -/
noncomputable def xsub : Xt → Xt → Xt
  | fin a, fin b => fin (a - b)
  | fin _, pinf => ninf
  | fin _, ninf => pinf
  | pinf, fin _ => pinf
  | ninf, fin _ => ninf
  | pinf, pinf => nan
  | ninf, ninf => nan
  | pinf, ninf => pinf
  | ninf, pinf => ninf
  | nan, _ => nan
  | _, nan => nan

/-- IEEE `<`: comparisons involving NaN are false. -/
def xlt : Xt → Xt → Prop
  | fin a, fin b => a < b
  | fin _, pinf => True
  | fin _, ninf => False
  | pinf, _ => False
  | ninf, fin _ => True
  | ninf, pinf => True
  | ninf, ninf => False
  | nan, _ => False
  | _, nan => False

/-- Model of `f64::ln()`: the real logarithm on positive values, `−∞` at zero,
NaN on negative values, `+∞` at `+∞`. -/
noncomputable def xlog : Xt → Xt
  | fin x => if 0 < x then fin (Real.log x) else if x = 0 then ninf else nan
  | pinf => pinf
  | ninf => nan
  | nan => nan

end Xt

/-- The exact value of `f64::MAX` (= `(2 − 2⁻⁵²)·2¹⁰²³`), the initial
value of the running minimum in `calc_free_energy`. -/
noncomputable def f64MAX : ℝ := 2 ^ 1024 - 2 ^ 971

/-- Model of `calc_free_energy` from `src/lib.rs`: map `p ↦ -kT * p.ln()`,
track the running minimum starting from `f64::MAX` (updated when
`free_e < minimum`, so NaN and `+∞` never update it), then subtract the
minimum from every entry.  The function reads only `kT` from the
dataset, so the model takes `kT` directly. -/
noncomputable def calc_free_energy (kT : ℝ) (P : List ℝ) : List Xt :=
  let free_energy := P.map (fun p => Xt.xmul (Xt.fin (-kT)) (Xt.xlog (Xt.fin p)))
  let minimum := free_energy.foldl
    (fun minimum free_e => if Xt.xlt free_e minimum then free_e else minimum)
    (Xt.fin f64MAX)
  free_energy.map (fun e => Xt.xsub e minimum)

end freeE

/-! Concrete fixtures used by counterexamples and witnesses. -/

/-- A one-window, one-bin dataset on which every quantity stays exactly
`1`: one data point in the single bin, unit weight and unit bias. -/
noncomputable def dsUnit : wham.Dataset := ⟨1, 1, 1, [⟨1, [1]⟩], [1], [1]⟩

/-- A one-window, one-bin dataset whose histogram is empty. -/
noncomputable def dsEmptyH : wham.Dataset := ⟨1, 1, 1, [⟨0, [0]⟩], [1], [1]⟩

/-- Tolerance 0, iteration cap 10. -/
noncomputable def cfg10 : wham.Config := ⟨0, 10⟩

/-- Tolerance 0, iteration cap 11. -/
noncomputable def cfg11 : wham.Config := ⟨0, 11⟩

/-- Tolerance 0, iteration cap 20. -/
noncomputable def cfg20 : wham.Config := ⟨0, 20⟩

/-- A one-window, one-bin `Fq` dataset whose histogram is empty (zero
points, zero bin count). -/
def fqDsEmpty : whamfq.Dataset := ⟨1, [⟨0, [0]⟩], [1], [1]⟩

/-- The statistical inefficiency of the `tsC10` coordinate column:
a value just above `2` (by slightly less than `1e−10`). -/
def gC10 : ℚ := 92575354222246184522 / 46287677108808757477

/-- A one-dimensional time series (time row plus one coordinate row)
whose statistical inefficiency is `gC10`: barely above an integer, it
falls inside the `1e−10` tolerance band of the stride computation. -/
def tsC10 : List (List ℚ) :=
  [[0, 1, 2, 3, 4, 5], [0, 1, 2, 3, 4, 7714449281 / 1285741547]]

/-- A short alternating time series whose statistical inefficiency is
exactly `1`. -/
def tsAlt : List (List ℚ) := [[0, 1, 2, 3], [0, 1, 0, 1]]

/-! ## Theorems -/

section StepByLemmas

variable {α : Type _}

theorem stepByGo_getD (k : ℕ) (hk : 1 ≤ k) (d : α) :
    ∀ (l : List α) (c i : ℕ), c + k * i < l.length →
      (uncorr.stepByGo k l c).getD i d = l.getD (c + k * i) d := by
  intro l
  induction l with
  | nil => intro c i h; simp at h
  | cons a rest ih =>
      intro c i h
      match c, i with
      | 0, 0 => simp [uncorr.stepByGo]
      | 0, j + 1 =>
          have hlt : (k - 1) + k * j < rest.length := by
            simp only [List.length_cons] at h
            have : k * (j + 1) = k * j + k := by ring
            omega
          have := ih (k - 1) j hlt
          simp only [uncorr.stepByGo, List.getD_cons_succ, this]
          have hidx : k * (j + 1) = ((k - 1) + k * j) + 1 := by
            have : k * (j + 1) = k * j + k := by ring
            omega
          rw [Nat.zero_add, hidx, List.getD_cons_succ]
      | c' + 1, i =>
          have hlt : c' + k * i < rest.length := by
            simp only [List.length_cons] at h; omega
          have := ih c' i hlt
          simp only [uncorr.stepByGo, this]
          have hidx : c' + 1 + k * i = (c' + k * i) + 1 := by omega
          rw [hidx, List.getD_cons_succ]

theorem stepByGo_length (k : ℕ) (hk : 1 ≤ k) :
    ∀ (l : List α) (c : ℕ), c ≤ k - 1 →
      (uncorr.stepByGo k l c).length = (l.length - c + k - 1) / k := by
  intro l
  induction l with
  | nil =>
      intro c hc
      simp only [uncorr.stepByGo, List.length_nil]
      have : 0 - c + k - 1 = k - 1 := by omega
      rw [this, Nat.div_eq_of_lt (by omega)]
  | cons a rest ih =>
      intro c hc
      match c with
      | 0 =>
          have := ih (k - 1) (le_refl _)
          simp only [uncorr.stepByGo, List.length_cons, this]
          have h1 : rest.length - (k - 1) + k - 1 + k = rest.length + 1 - 0 + k - 1 ∨
              rest.length + 1 ≤ k := by omega
          rcases h1 with h1 | h1
          · rw [← h1, Nat.add_div_right _ (by omega)]
          · have hz : rest.length - (k - 1) + k - 1 < k := by omega
            have hz2 : rest.length + 1 - 0 + k - 1 = rest.length + k := by omega
            rw [Nat.div_eq_of_lt hz, hz2]
            have : rest.length + k = rest.length + 1 * k := by omega
            rw [this, Nat.add_mul_div_right _ _ (by omega : 0 < k),
              Nat.div_eq_of_lt (by omega)]
      | c' + 1 =>
          have := ih c' (by omega)
          simp only [uncorr.stepByGo, List.length_cons, this]
          congr 1
          omega

theorem stepBy_getD (k : ℕ) (hk : 1 ≤ k) (d : α) (l : List α) (i : ℕ)
    (h : k * i < l.length) :
    (uncorr.stepBy k l).getD i d = l.getD (k * i) d := by
  have := stepByGo_getD k hk d l 0 i (by omega)
  simpa [uncorr.stepBy] using this

theorem stepBy_length (k : ℕ) (hk : 1 ≤ k) (l : List α) :
    (uncorr.stepBy k l).length = (l.length + k - 1) / k := by
  have := stepByGo_length k hk l 0 (by omega)
  simpa [uncorr.stepBy] using this

end StepByLemmas

/-- C1 (counterexample): on a dataset whose only histogram is empty, the
denominator of `calc_bin_probability` is zero and so is the weighted bin
count, and the unguarded division returns NaN — not `0` as the claim
states. -/
theorem c1_counterexample :
    whamfq.denomSum fqDsEmpty 0 [Fq64.Fq.fin 1] = Fq64.Fq.fin 0 ∧
    whamfq.Dataset.get_weighted_bin_count fqDsEmpty 0 = Fq64.Fq.fin 0 ∧
    whamfq.calc_bin_probability 0 fqDsEmpty [Fq64.Fq.fin 1] = Fq64.Fq.nan ∧
    Fq64.Fq.nan ≠ Fq64.Fq.fin 0 := by
  refine ⟨?_, ?_, ?_, ?_⟩ <;> with_unfolding_all decide

/-- C1 (amended): when the denominator of the first WHAM equation is
zero at a bin, the weighted bin count there being zero as well, the
unguarded IEEE division `bin_count / denom_sum` in
`calc_bin_probability` yields NaN (`0/0 = NaN`), not `0`. -/
theorem c1_zero_denominator_nan (ds : whamfq.Dataset) (F : List Fq64.Fq) (bin : ℕ)
    (hden : whamfq.denomSum ds bin F = Fq64.Fq.fin 0)
    (hnum : whamfq.Dataset.get_weighted_bin_count ds bin = Fq64.Fq.fin 0) :
    whamfq.calc_bin_probability bin ds F = Fq64.Fq.nan := by
  simp [whamfq.calc_bin_probability, hden, hnum, Fq64.Fq.fdiv]

/-- C1 (witness): the amended statement evaluated on the concrete
empty-histogram dataset. -/
theorem c1_witness :
    (whamfq.denomSum fqDsEmpty 0 [Fq64.Fq.fin 1] = Fq64.Fq.fin 0 ∧
      whamfq.Dataset.get_weighted_bin_count fqDsEmpty 0 = Fq64.Fq.fin 0) ∧
    whamfq.calc_bin_probability 0 fqDsEmpty [Fq64.Fq.fin 1] = Fq64.Fq.nan :=
  ⟨⟨by with_unfolding_all decide, by with_unfolding_all decide⟩,
    c1_zero_denominator_nan fqDsEmpty [Fq64.Fq.fin 1] 0
      (by with_unfolding_all decide) (by with_unfolding_all decide)⟩

/-- C6: on the constant series `[5, 5, 5]` the variance is zero, the
autocorrelation is `0/0 = NaN`, the NaN escapes both the `c ≤ 0` break
and the final `g < 1` clamp (IEEE comparisons with NaN are false), and
`statistical_ineff` returns NaN instead of short-circuiting to `1`; in
particular the claimed bound `g ≥ 1` fails here. -/
theorem c6_constant_series_nan :
    correlation_analysis.statistical_ineff [5, 5, 5] = Fq64.Fq.nan ∧
    Fq64.Fq.fle (Fq64.Fq.fin 1) (correlation_analysis.statistical_ineff [5, 5, 5]) = false := by
  constructor <;> with_unfolding_all decide


/-- C10 (counterexample): the coordinate column of `tsC10` has
statistical inefficiency `gC10` with `⌈gC10⌉ = 3`, yet the code computes
stride `2`: because `gC10` exceeds its truncation by less than the
`1e−10` tolerance, the `trunc_g += 1` step is skipped. -/
theorem c10_counterexample :
    uncorr.maxG tsC10 = Fq64.Fq.fin gC10 ∧ (⌈gC10⌉ : ℤ) = 3 ∧
    uncorr.strideOf tsC10 = 2 := by
  have hmax : uncorr.maxG tsC10 = Fq64.Fq.fin gC10 := by
    norm_num [uncorr.maxG, correlation_analysis.statistical_ineff,
      correlation_analysis.autocorrelation, correlation_analysis.ineffGo,
      statistics.mean, statistics.autocov, Fq64.Fq.fqsum, Fq64.Fq.fadd,
      Fq64.Fq.fsub, Fq64.Fq.fmul, Fq64.Fq.fdiv, Fq64.Fq.fle, Fq64.Fq.flt,
      Fq64.Fq.fgt, tsC10, gC10, List.range']
  have hceil : (⌈gC10⌉ : ℤ) = 3 := by
    rw [Int.ceil_eq_iff]
    constructor <;> norm_num [gC10]
  refine ⟨hmax, hceil, ?_⟩
  rw [uncorr.strideOf, hmax]
  have h0 : (0 : ℚ) ≤ gC10 := by norm_num [gC10]
  have hfl : ⌊gC10⌋ = 2 := by
    rw [Int.floor_eq_iff]
    constructor <;> norm_num [gC10]
  have h2 : Int.toNat 2 = 2 := rfl
  simp only [Fq64.Fq.ftruncUsize, if_pos h0, hfl, Fq64.Fq.fsub, Fq64.Fq.fabs,
    Fq64.Fq.fgt, Fq64.Fq.flt, decide_eq_true_eq, h2]
  rw [if_neg]
  rw [abs_sub_comm, abs_of_nonneg (by norm_num [gC10])]
  norm_num [gC10]

/-- C10 (amended): when the largest per-dimension statistical
inefficiency is a finite `q ≥ 1` whose fractional part is either zero or
greater than the `1e−10` tolerance, the subsampling stride equals
`⌈q⌉` and the output retains exactly every stride-th sample of every
row, starting with the first.  (Inside the tolerance band — `q` within
`1e−10` above an integer — the code uses `⌊q⌋` instead, see the
counterexample.) -/
theorem c10_stride_ceiling (ts : List (List ℚ)) (q : ℚ)
    (hmax : uncorr.maxG ts = Fq64.Fq.fin q) (hq1 : 1 ≤ q)
    (hfrac : q - ⌊q⌋ = 0 ∨ 1 / 10000000000 < q - ⌊q⌋) :
    uncorr.strideOf ts = (⌈q⌉).toNat ∧
    uncorr.uncorrelate ts = ts.map (uncorr.stepBy ((⌈q⌉).toNat)) ∧
    ∀ row ∈ ts,
      (uncorr.stepBy ((⌈q⌉).toNat) row).length =
        (row.length + (⌈q⌉).toNat - 1) / (⌈q⌉).toNat ∧
      ∀ i : ℕ, (⌈q⌉).toNat * i < row.length →
        (uncorr.stepBy ((⌈q⌉).toNat) row).getD i 0 = row.getD ((⌈q⌉).toNat * i) 0 := by
  have hq0 : (0 : ℚ) ≤ q := le_trans (by norm_num) hq1
  have hfl1 : (1 : ℤ) ≤ ⌊q⌋ := by
    rw [Int.le_floor]; exact_mod_cast hq1
  have hfl0 : (0 : ℤ) ≤ ⌊q⌋ := by omega
  have hcastfl : ((⌊q⌋.toNat : ℚ)) = (⌊q⌋ : ℚ) := by
    rw [← Int.cast_natCast, Int.toNat_of_nonneg hfl0]
  have habs : |(⌊q⌋.toNat : ℚ) - q| = q - ⌊q⌋ := by
    rw [hcastfl, abs_sub_comm, abs_of_nonneg (by linarith [Int.floor_le q])]
  have hstride : uncorr.strideOf ts = (⌈q⌉).toNat := by
    rw [uncorr.strideOf, hmax]
    simp only [Fq64.Fq.ftruncUsize, if_pos hq0, Fq64.Fq.fsub, Fq64.Fq.fabs,
      Fq64.Fq.fgt, Fq64.Fq.flt, decide_eq_true_eq, habs]
    rcases hfrac with hfrac | hfrac
    · have hceil : ⌈q⌉ = ⌊q⌋ := by
        have hqint : q = (⌊q⌋ : ℚ) := by linarith
        rw [hqint, Int.ceil_intCast, Int.floor_intCast]
      rw [hfrac, if_neg (by norm_num), hceil]
    · have hceil : ⌈q⌉ = ⌊q⌋ + 1 := by
        rw [Int.ceil_eq_iff]
        refine ⟨?_, ?_⟩
        · push_cast
          nlinarith [hfrac]
        · push_cast
          linarith [Int.lt_floor_add_one q]
      rw [if_pos hfrac, hceil]
      omega
  have hk1 : 1 ≤ (⌈q⌉).toNat := by
    have : (1 : ℤ) ≤ ⌈q⌉ := le_trans hfl1 (Int.floor_le_ceil q)
    omega
  refine ⟨hstride, ?_, ?_⟩
  · rw [uncorr.uncorrelate, hstride]
  · intro row _
    exact ⟨stepBy_length _ hk1 row, fun i hi => stepBy_getD _ hk1 0 row i hi⟩

/-- C10 (witness): the amended statement evaluated on the alternating
series, whose statistical inefficiency is exactly `1`: stride `⌈1⌉ = 1`
and every row is retained unchanged. -/
theorem c10_witness :
    (uncorr.maxG tsAlt = Fq64.Fq.fin 1 ∧ (1 : ℚ) ≤ 1 ∧ (1 : ℚ) - ⌊(1 : ℚ)⌋ = 0) ∧
    (uncorr.strideOf tsAlt = (⌈(1 : ℚ)⌉).toNat ∧
      uncorr.uncorrelate tsAlt = tsAlt.map (uncorr.stepBy ((⌈(1 : ℚ)⌉).toNat)) ∧
      ∀ row ∈ tsAlt,
        (uncorr.stepBy ((⌈(1 : ℚ)⌉).toNat) row).length =
          (row.length + (⌈(1 : ℚ)⌉).toNat - 1) / (⌈(1 : ℚ)⌉).toNat ∧
        ∀ i : ℕ, (⌈(1 : ℚ)⌉).toNat * i < row.length →
          (uncorr.stepBy ((⌈(1 : ℚ)⌉).toNat) row).getD i 0 =
            row.getD ((⌈(1 : ℚ)⌉).toNat * i) 0) :=
  ⟨⟨by with_unfolding_all decide, le_refl 1, by norm_num⟩,
    c10_stride_ceiling tsAlt 1 (by with_unfolding_all decide) (le_refl 1)
      (Or.inl (by norm_num))⟩

section IndexLemmas

theorem flat_index_cons (i L : ℕ) (is ls : List ℕ) :
    ioq.flat_index (i :: is) (L :: ls) = i + L * ioq.flat_index is ls := by
  simp only [ioq.flat_index, List.length_cons, List.range_succ_eq_map, List.map_cons,
    List.map_map, List.getD_cons_zero, List.take_zero, List.prod_nil, Nat.mul_one,
    List.sum_cons]
  congr 1
  rw [← List.sum_map_mul_left]
  apply congrArg
  apply List.map_congr_left
  intro k _
  simp only [Function.comp_apply, List.getD_cons_succ, List.take_succ_cons,
    List.prod_cons]
  ring

theorem flat_index_lt (is ls : List ℕ) (h : List.Forall₂ (· < ·) is ls) :
    ioq.flat_index is ls < ls.prod := by
  induction h with
  | nil => simp [ioq.flat_index]
  | @cons i L is' ls' hiL _ ih =>
      rw [flat_index_cons, List.prod_cons]
      have h1 : ioq.flat_index is' ls' + 1 ≤ ls'.prod := ih
      calc i + L * ioq.flat_index is' ls' ≤ (L - 1) + L * (ls'.prod - 1) := by
            have : L * ioq.flat_index is' ls' ≤ L * (ls'.prod - 1) :=
              Nat.mul_le_mul_left _ (by omega)
            omega
        _ < L * ls'.prod := by
            have hL : 1 ≤ L := by omega
            have : L * (ls'.prod - 1) + L = L * ls'.prod := by
              rw [← Nat.mul_succ]
              congr 1
              omega
            omega

theorem expandGo_cons (L : ℕ) (ls' : List ℕ) (hpos : ∀ x ∈ ls', 0 < x) :
    ∀ d f i, i < L → 1 ≤ d →
      ioq.expandGo (L :: ls') d (i + L * f) =
        ((ioq.expandGo ls' (d - 1) f).2 :: (ioq.expandGo ls' (d - 1) f).1, i) := by
  intro d
  induction d with
  | zero => intro f i _ h1; omega
  | succ d' ih =>
      intro f i hiL _
      by_cases hd : d' = 0
      · subst hd
        simp only [ioq.expandGo, List.take_succ_cons, List.take_zero, List.prod_cons,
          List.prod_nil, Nat.mul_one]
        have hdiv : (i + L * f) / L = f := by
          rw [Nat.add_mul_div_left _ _ (by omega : 0 < L), Nat.div_eq_of_lt hiL]
          omega
        have hmod : (i + L * f) % L = i := by
          rw [Nat.add_mul_mod_self_left, Nat.mod_eq_of_lt hiL]
        rw [hdiv, hmod]
        simp
      · have hd1 : 1 ≤ d' := by omega
        have hLpos : 0 < L := by omega
        have hP : 0 < (ls'.take d').prod :=
          List.prod_pos (fun x hx => hpos x (List.mem_of_mem_take hx))
        simp only [ioq.expandGo, List.take_succ_cons, List.prod_cons]
        set P := (ls'.take d').prod with hPdef
        have hx : i + L * (f % P) < L * P := by
          have : f % P < P := Nat.mod_lt _ hP
          calc i + L * (f % P) < L + L * (f % P) := by omega
            _ = L * (f % P + 1) := by ring
            _ ≤ L * P := Nat.mul_le_mul_left _ (by omega)
        have hsplit : i + L * f = (i + L * (f % P)) + (f / P) * (L * P) := by
          conv_lhs => rw [show f = P * (f / P) + f % P from (Nat.div_add_mod f P).symm]
          ring
        have hdiv : (i + L * f) / (L * P) = f / P := by
          rw [hsplit, Nat.add_mul_div_right _ _ (Nat.mul_pos hLpos hP),
            Nat.div_eq_of_lt hx]
          omega
        have hmod : (i + L * f) % (L * P) = i + L * (f % P) := by
          rw [hsplit, Nat.add_mul_mod_self_right, Nat.mod_eq_of_lt hx]
        rw [hdiv, hmod, ih (f % P) i hiL hd1]
        obtain ⟨d2, rfl⟩ : ∃ d2, d' = d2 + 1 := ⟨d' - 1, by omega⟩
        simp only [Nat.add_sub_cancel, ioq.expandGo, List.cons_append, ← hPdef]

end IndexLemmas

theorem forall2_lt_pos {is ls : List ℕ} (h : List.Forall₂ (· < ·) is ls) :
    ∀ x ∈ ls, 0 < x := by
  induction h with
  | nil => simp
  | @cons a b _ _ hab _ ih =>
      intro x hx
      rcases List.mem_cons.mp hx with rfl | hx
      · omega
      · exact ih x hx

theorem expand_flat (is ls : List ℕ) (h : List.Forall₂ (· < ·) is ls)
    (hne : is ≠ []) :
    ioq.expand_index (ioq.flat_index is ls) ls = is := by
  induction h with
  | nil => simp at hne
  | @cons i L is' ls' hiL htail ih =>
      rcases htail with _ | @⟨i2, L2, is2, ls2, hiL2, htail2⟩
      · rw [flat_index_cons]
        have h0 : ioq.flat_index [] [] = 0 := rfl
        rw [h0, Nat.mul_zero, Nat.add_zero]
        simp [ioq.expand_index, ioq.expandGo]
      · have htail' : List.Forall₂ (· < ·) (i2 :: is2) (L2 :: ls2) :=
          List.Forall₂.cons hiL2 htail2
        have hpos : ∀ x ∈ (L2 :: ls2), 0 < x := forall2_lt_pos htail'
        have hlen : 1 ≤ (L2 :: ls2).length := by simp
        rw [flat_index_cons, ioq.expand_index]
        have hgo := expandGo_cons L (L2 :: ls2) hpos (L2 :: ls2).length
          (ioq.flat_index (i2 :: is2) (L2 :: ls2)) i hiL hlen
        have hlen2 : (L :: L2 :: ls2).length - 1 = (L2 :: ls2).length := by simp
        rw [hlen2, hgo]
        have ih2 := ih (by simp)
        rw [ioq.expand_index] at ih2
        simpa using ih2

/-- C8: index linearisation round-trips.  For every multi-index with
`i_d < L_d` in every dimension (`D ≥ 1`), `flat_index` computes
`Σ_d i_d · Π_{k<d} L_k` (lowest dimension varies fastest), the result
lies in `[0, Π_d L_d)`, and `expand_index` recovers the original
multi-index exactly. -/
theorem c8_flat_expand_round_trip (is ls : List ℕ)
    (h : List.Forall₂ (· < ·) is ls) (hne : is ≠ []) :
    ioq.flat_index is ls =
      ((List.range is.length).map (fun d => is.getD d 0 * ((ls.take d).prod))).sum ∧
    ioq.flat_index is ls < ls.prod ∧
    ioq.expand_index (ioq.flat_index is ls) ls = is :=
  ⟨rfl, flat_index_lt is ls h, expand_flat is ls h hne⟩

/-- C8 (witness): the round trip evaluated at the concrete multi-index
`(1, 2)` on a `3 × 4` grid: flat index `7`, recovered exactly. -/
theorem c8_witness :
    (List.Forall₂ (· < ·) [1, 2] [3, 4] ∧ ([1, 2] : List ℕ) ≠ []) ∧
    (ioq.flat_index [1, 2] [3, 4] =
      ((List.range ([1, 2] : List ℕ).length).map
        (fun d => ([1, 2] : List ℕ).getD d 0 * ((([3, 4] : List ℕ).take d).prod))).sum ∧
    ioq.flat_index [1, 2] [3, 4] < ([3, 4] : List ℕ).prod ∧
    ioq.expand_index (ioq.flat_index [1, 2] [3, 4]) [3, 4] = [1, 2]) :=
  ⟨⟨List.Forall₂.cons (by omega) (List.Forall₂.cons (by omega) List.Forall₂.nil),
      by simp⟩,
    c8_flat_expand_round_trip [1, 2] [3, 4]
      (List.Forall₂.cons (by omega) (List.Forall₂.cons (by omega) List.Forall₂.nil))
      (by simp)⟩

section WeightLemmas

theorem telescope_sum (r : List ℚ) (N : ℕ) :
    ((List.range N).map (fun i => r.getD (i + 1) 0 - r.getD i 0)).sum =
      r.getD N 0 - r.getD 0 0 := by
  induction N with
  | zero => simp
  | succ n ih =>
      rw [List.range_succ, List.map_append, List.sum_append]
      simp only [List.map_cons, List.map_nil, List.sum_cons, List.sum_nil, ih]
      ring

end WeightLemmas

/-- C5: the bootstrap weight generator.  For any `num_windows ≥ 2` and
any draw sequence the seeded RNG can produce (`num_windows − 1` values
in `[0,1)`), the generated weight vector has length `num_windows`, its
entries are the consecutive differences of the sorted draws extended
with `0` below and `1` above, every entry lies in `[0,1]`, and the
entries sum to exactly `1`. -/
theorem c5_bootstrap_weights (N : ℕ) (draws : List ℚ) (hN : 2 ≤ N)
    (hlen : draws.length = N - 1) (hdr : ∀ x ∈ draws, 0 ≤ x ∧ x < 1) :
    (ioq.generate_random_weights N draws).length = N ∧
    (ioq.generate_random_weights N draws).sum = 1 ∧
    ∀ w ∈ ioq.generate_random_weights N draws, 0 ≤ w ∧ w ≤ 1 := by
  have hweights : ioq.generate_random_weights N draws =
      (List.range N).map (fun i => (0 :: (draws.mergeSort ++ [1])).getD (i + 1) 0 -
        (0 :: (draws.mergeSort ++ [1])).getD i 0) := rfl
  set s := draws.mergeSort with hs
  have hslen : s.length = N - 1 := by rw [hs, List.length_mergeSort]; exact hlen
  have hsmem : ∀ x ∈ s, 0 ≤ x ∧ x < 1 := fun x hx =>
    hdr x ((List.mergeSort_perm draws _).mem_iff.mp hx)
  have hssorted : s.Sorted (· ≤ ·) := List.sorted_mergeSort' draws
  set rnds : List ℚ := 0 :: (s ++ [1]) with hrnds
  have hrlen : rnds.length = N + 1 := by
    rw [hrnds]
    simp only [List.length_cons, List.length_append, List.length_singleton,
      List.length_nil, hslen]
    omega
  have hrsorted : rnds.Sorted (· ≤ ·) := by
    rw [hrnds, List.sorted_cons]
    constructor
    · intro b hb
      rcases List.mem_append.mp hb with hb | hb
      · exact (hsmem b hb).1
      · simp only [List.mem_singleton] at hb
        rw [hb]; norm_num
    · rw [List.Sorted, List.pairwise_append]
      refine ⟨hssorted, List.pairwise_singleton _ _, ?_⟩
      intro a ha b hb
      simp only [List.mem_singleton] at hb
      rw [hb]
      exact le_of_lt (hsmem a ha).2
  have hrmem : ∀ x ∈ rnds, 0 ≤ x ∧ x ≤ 1 := by
    intro x hx
    rw [hrnds] at hx
    rcases List.mem_cons.mp hx with rfl | hx
    · norm_num
    · rcases List.mem_append.mp hx with hx | hx
      · exact ⟨(hsmem x hx).1, le_of_lt (hsmem x hx).2⟩
      · simp only [List.mem_singleton] at hx
        rw [hx]; norm_num
  have hgetD_le : ∀ i j : ℕ, i ≤ j → j < rnds.length →
      rnds.getD i 0 ≤ rnds.getD j 0 := by
    intro i j hij hj
    have hi : i < rnds.length := by omega
    rw [List.getD_eq_getElem rnds 0 hi, List.getD_eq_getElem rnds 0 hj]
    rcases Nat.eq_or_lt_of_le hij with rfl | hij
    · exact le_refl _
    · simpa using
        List.Sorted.rel_get_of_lt hrsorted
          (Fin.mk_lt_mk.mpr hij : (⟨i, hi⟩ : Fin rnds.length) < ⟨j, hj⟩)
  have hmem_getD : ∀ i : ℕ, i < rnds.length →
      0 ≤ rnds.getD i 0 ∧ rnds.getD i 0 ≤ 1 := by
    intro i hi
    rw [List.getD_eq_getElem rnds 0 hi]
    exact hrmem _ (List.getElem_mem hi)
  have hr0 : rnds.getD 0 0 = 0 := by rw [hrnds]; rfl
  have hrN : rnds.getD N 0 = 1 := by
    obtain ⟨M, rfl⟩ : ∃ M, N = M + 1 := ⟨N - 1, by omega⟩
    rw [hrnds, List.getD_cons_succ]
    have hM : M = s.length := by omega
    subst hM
    have hvalid : s.length < (s ++ [1]).length := by simp
    rw [List.getD_eq_getElem _ 0 hvalid, List.getElem_append_right (le_refl _)]
    simp
  rw [hweights]
  refine ⟨by simp, ?_, ?_⟩
  · rw [telescope_sum rnds N, hr0, hrN]
    ring
  · intro w hw
    obtain ⟨i, hi, rfl⟩ := List.mem_map.mp hw
    rw [List.mem_range] at hi
    have hi1 : i + 1 < rnds.length := by omega
    constructor
    · have := hgetD_le i (i + 1) (by omega) hi1
      linarith
    · have h1 := (hmem_getD (i + 1) hi1).2
      have h2 := (hmem_getD i (by omega)).1
      linarith

/-- C5 (witness): the generator evaluated at `num_windows = 2` with the
single draw `1/2`: weights `[1/2, 1/2]`. -/
theorem c5_witness :
    ((2 : ℕ) ≤ 2 ∧ ([(1 : ℚ)/2]).length = 2 - 1 ∧
      (∀ x ∈ [(1 : ℚ)/2], 0 ≤ x ∧ x < 1)) ∧
    ((ioq.generate_random_weights 2 [(1 : ℚ)/2]).length = 2 ∧
      (ioq.generate_random_weights 2 [(1 : ℚ)/2]).sum = 1 ∧
      ∀ w ∈ ioq.generate_random_weights 2 [(1 : ℚ)/2], 0 ≤ w ∧ w ≤ 1) :=
  ⟨⟨le_refl 2, rfl, by norm_num⟩,
    c5_bootstrap_weights 2 [(1 : ℚ)/2] (le_refl 2) rfl (by norm_num)⟩

section HistogramLemmas

theorem getD_map_range {α : Type _} (D : ℕ) (f : ℕ → α) (d : ℕ) (hd : d < D) (x : α) :
    ((List.range D).map f).getD d x = f d := by
  rw [List.getD_eq_getElem _ _ (by simpa using hd)]
  simp

theorem sum_set_getD : ∀ (l : List ℚ) (i : ℕ), i < l.length →
    (l.set i (l.getD i 0 + 1)).sum = l.sum + 1 := by
  intro l
  induction l with
  | nil => intro i hi; simp at hi
  | cons a t ih =>
      intro i hi
      match i with
      | 0 => simp [List.sum_cons]; ring
      | i + 1 =>
          simp only [List.set_cons_succ, List.getD_cons_succ, List.sum_cons,
            ih i (by simpa using hi)]
          ring

theorem ratAsUsize_lt (v mn mx : ℚ) (n : ℕ) (h1 : mn ≤ v) (h2 : v < mx)
    (hn : 1 ≤ n) (hlt : mn < mx) :
    ioq.ratAsUsize ((v - mn) / ((mx - mn) / (n : ℚ))) < n := by
  have hn0 : (0 : ℚ) < (n : ℚ) := by exact_mod_cast hn
  have hw : (0 : ℚ) < (mx - mn) / (n : ℚ) := div_pos (by linarith) hn0
  have hq0 : (0 : ℚ) ≤ (v - mn) / ((mx - mn) / (n : ℚ)) :=
    div_nonneg (by linarith) (le_of_lt hw)
  rw [ioq.ratAsUsize, if_pos hq0]
  have hqn : (v - mn) / ((mx - mn) / (n : ℚ)) < (n : ℚ) := by
    rw [div_lt_iff₀ hw]
    have : (n : ℚ) * ((mx - mn) / (n : ℚ)) = mx - mn := by
      field_simp
    rw [this]
    linarith
  have hfl : ⌊(v - mn) / ((mx - mn) / (n : ℚ))⌋ < (n : ℤ) := by
    rw [Int.floor_lt]
    exact_mod_cast hqn
  have hfl0 : 0 ≤ ⌊(v - mn) / ((mx - mn) / (n : ℚ))⌋ := Int.floor_nonneg.mpr hq0
  omega

theorem in_hist_iff (values : List ℚ) (cfg : ioq.HistCfg) :
    ioq.is_in_hist_boundaries values cfg = true ↔
      ∀ d, d < cfg.dimens →
        cfg.hist_min.getD d 0 ≤ values.getD d 0 ∧
        values.getD d 0 < cfg.hist_max.getD d 0 := by
  simp only [ioq.is_in_hist_boundaries, List.all_eq_true, List.mem_range,
    Bool.not_eq_eq_eq_not, Bool.not_true, Bool.or_eq_false_iff,
    decide_eq_false_iff_not, not_lt, not_le]

end HistogramLemmas

section HistogramFoldLemmas

theorem histStep_length (ts : List (List ℚ)) (cfg : ioq.HistCfg) (hist : List ℚ)
    (i : ℕ) : (ioq.histStep ts cfg hist i).length = hist.length := by
  rw [ioq.histStep]
  split
  · simp [List.length_set]
  · rfl

theorem histStep_sum (ts : List (List ℚ)) (cfg : ioq.HistCfg)
    (hminmax : ∀ d, d < cfg.dimens → cfg.hist_min.getD d 0 < cfg.hist_max.getD d 0)
    (hnb : ∀ d, d < cfg.dimens → 1 ≤ cfg.num_bins.getD d 0)
    (hnblen : cfg.num_bins.length = cfg.dimens)
    (hist : List ℚ) (hhl : hist.length = cfg.num_bins.prod) (i : ℕ) :
    (ioq.histStep ts cfg hist i).sum = hist.sum +
      (if ioq.is_in_hist_boundaries
          (((List.range (cfg.dimens + 1)).map
            (fun j => (ts.getD j []).getD i 0)).drop 1) cfg = true
        then (1 : ℚ) else 0) := by
  rw [ioq.histStep]
  set values := (List.range (cfg.dimens + 1)).map (fun j => (ts.getD j []).getD i 0)
    with hvalues
  by_cases h : ioq.is_in_hist_boundaries (values.drop 1) cfg = true
  · rw [if_pos h, if_pos h]
    set bin_indeces := (List.range cfg.dimens).map (fun dimen =>
      ioq.ratAsUsize ((values.getD (dimen + 1) 0 - cfg.hist_min.getD dimen 0) /
        (ioq.binWidths cfg).getD dimen 0)) with hbi
    have hdrop : ∀ d, d < cfg.dimens → (values.drop 1).getD d 0 = values.getD (d + 1) 0 := by
      intro d hd
      have hlenv : values.length = cfg.dimens + 1 := by simp [hvalues]
      have h1 : d < (values.drop 1).length := by simp [hlenv]; omega
      have h2 : d + 1 < values.length := by omega
      rw [List.getD_eq_getElem _ _ h1, List.getD_eq_getElem _ _ h2,
        List.getElem_drop]
      congr 1
      omega
    have hbounds := (in_hist_iff (values.drop 1) cfg).mp h
    have hfa : List.Forall₂ (· < ·) bin_indeces cfg.num_bins := by
      rw [List.forall₂_iff_get]
      refine ⟨by simp [hbi, hnblen], ?_⟩
      intro d h1 h2
      have hd : d < cfg.dimens := by simpa [hbi] using h1
      have hget1 : bin_indeces.get ⟨d, h1⟩ =
          ioq.ratAsUsize ((values.getD (d + 1) 0 - cfg.hist_min.getD d 0) /
            (ioq.binWidths cfg).getD d 0) := by
        simp [hbi]
      have hget2 : cfg.num_bins.get ⟨d, h2⟩ = cfg.num_bins.getD d 0 := by
        rw [List.getD_eq_getElem _ _ h2]
        simp
      rw [hget1, hget2]
      have hbw : (ioq.binWidths cfg).getD d 0 =
          (cfg.hist_max.getD d 0 - cfg.hist_min.getD d 0) /
            ((cfg.num_bins.getD d 0 : ℕ) : ℚ) := by
        rw [ioq.binWidths, getD_map_range _ _ d hd]
      rw [hbw]
      have hb := hbounds d hd
      rw [hdrop d hd] at hb
      exact ratAsUsize_lt _ _ _ _ hb.1 hb.2 (hnb d hd) (hminmax d hd)
    have hidx : ioq.flat_index bin_indeces cfg.num_bins < hist.length := by
      rw [hhl]
      exact flat_index_lt _ _ hfa
    exact sum_set_getD hist _ hidx
  · rw [if_neg h, if_neg h]
    ring

theorem foldl_histStep (ts : List (List ℚ)) (cfg : ioq.HistCfg)
    (hminmax : ∀ d, d < cfg.dimens → cfg.hist_min.getD d 0 < cfg.hist_max.getD d 0)
    (hnb : ∀ d, d < cfg.dimens → 1 ≤ cfg.num_bins.getD d 0)
    (hnblen : cfg.num_bins.length = cfg.dimens) :
    ∀ (idxs : List ℕ) (hist : List ℚ), hist.length = cfg.num_bins.prod →
      (idxs.foldl (ioq.histStep ts cfg) hist).length = cfg.num_bins.prod ∧
      (idxs.foldl (ioq.histStep ts cfg) hist).sum = hist.sum +
        ((idxs.filter (fun i => ioq.is_in_hist_boundaries
          (((List.range (cfg.dimens + 1)).map
            (fun j => (ts.getD j []).getD i 0)).drop 1) cfg)).length : ℚ) := by
  intro idxs
  induction idxs with
  | nil => intro hist hhl; simpa using hhl
  | cons i rest ih =>
      intro hist hhl
      have hstep_len : (ioq.histStep ts cfg hist i).length = cfg.num_bins.prod := by
        rw [histStep_length]; exact hhl
      have hstep_sum := histStep_sum ts cfg hminmax hnb hnblen hist hhl i
      obtain ⟨ihlen, ihsum⟩ := ih (ioq.histStep ts cfg hist i) hstep_len
      refine ⟨by simpa using ihlen, ?_⟩
      simp only [List.foldl_cons, ihsum, hstep_sum, List.filter_cons]
      by_cases h : ioq.is_in_hist_boundaries
          (((List.range (cfg.dimens + 1)).map
            (fun j => (ts.getD j []).getD i 0)).drop 1) cfg = true
      · rw [if_pos h]
        simp only [h, if_true, List.length_cons]
        push_cast
        ring
      · rw [if_neg h]
        simp only [h, if_false]
        have hb : ioq.is_in_hist_boundaries
            (((List.range (cfg.dimens + 1)).map
              (fun j => (ts.getD j []).getD i 0)).drop 1) cfg = false := by
          simpa using h
        simp [hb]

end HistogramFoldLemmas

/-- C9: histogram binning uses half-open boundaries per dimension
(`hist_min[d] ≤ x_d < hist_max[d]`): `is_in_hist_boundaries` holds
exactly on that condition, out-of-range samples are silently skipped,
and the built histogram satisfies `sum(bins) == num_points`, where
`num_points` counts exactly the mask-selected in-boundary samples. -/
theorem c9_histogram_halfopen (ts : List (List ℚ)) (mask : List Bool)
    (cfg : ioq.HistCfg)
    (hminmax : ∀ d, d < cfg.dimens → cfg.hist_min.getD d 0 < cfg.hist_max.getD d 0)
    (hnb : ∀ d, d < cfg.dimens → 1 ≤ cfg.num_bins.getD d 0)
    (hnblen : cfg.num_bins.length = cfg.dimens) :
    (∀ values : List ℚ, ioq.is_in_hist_boundaries values cfg = true ↔
      ∀ d, d < cfg.dimens →
        cfg.hist_min.getD d 0 ≤ values.getD d 0 ∧
        values.getD d 0 < cfg.hist_max.getD d 0) ∧
    (ioq.build_histogram_from_timeseries ts mask cfg).bins.sum =
      ((ioq.build_histogram_from_timeseries ts mask cfg).num_points : ℚ) ∧
    (ioq.build_histogram_from_timeseries ts mask cfg).num_points =
      (((List.range ((ts.getD 0 []).length)).filter
          (fun i => mask.getD i false)).filter
        (fun i => ioq.is_in_hist_boundaries
          (((List.range (cfg.dimens + 1)).map
            (fun j => (ts.getD j []).getD i 0)).drop 1) cfg)).length := by
  have hinit : (List.replicate cfg.num_bins.prod (0 : ℚ)).length = cfg.num_bins.prod := by
    simp
  obtain ⟨hflen, hfsum⟩ := foldl_histStep ts cfg hminmax hnb hnblen
    ((List.range ((ts.getD 0 []).length)).filter (fun i => mask.getD i false))
    (List.replicate cfg.num_bins.prod (0 : ℚ)) hinit
  have hsum0 : (List.replicate cfg.num_bins.prod (0 : ℚ)).sum = 0 := by simp
  rw [hsum0, zero_add] at hfsum
  refine ⟨fun values => in_hist_iff values cfg, ?_, ?_⟩
  · rw [ioq.build_histogram_from_timeseries]
    simp only [hfsum, Int.floor_natCast, Int.toNat_natCast]
  · rw [ioq.build_histogram_from_timeseries]
    simp only [hfsum, Int.floor_natCast, Int.toNat_natCast]

/-- C9 (witness): a 1-D histogram on `[0, 3)` with 3 bins over the
samples `1/2, 3/2, 7/2`: the out-of-range `7/2` is skipped and
`sum(bins) = num_points = 2`. -/
theorem c9_witness :
    ((∀ d, d < (ioq.HistCfg.mk 1 [0] [3] [3]).dimens →
        (ioq.HistCfg.mk 1 [0] [3] [3]).hist_min.getD d 0 <
          (ioq.HistCfg.mk 1 [0] [3] [3]).hist_max.getD d 0) ∧
      (∀ d, d < (ioq.HistCfg.mk 1 [0] [3] [3]).dimens →
        1 ≤ (ioq.HistCfg.mk 1 [0] [3] [3]).num_bins.getD d 0) ∧
      (ioq.HistCfg.mk 1 [0] [3] [3]).num_bins.length =
        (ioq.HistCfg.mk 1 [0] [3] [3]).dimens) ∧
    ((∀ values : List ℚ,
        ioq.is_in_hist_boundaries values (ioq.HistCfg.mk 1 [0] [3] [3]) = true ↔
        ∀ d, d < (ioq.HistCfg.mk 1 [0] [3] [3]).dimens →
          (ioq.HistCfg.mk 1 [0] [3] [3]).hist_min.getD d 0 ≤ values.getD d 0 ∧
          values.getD d 0 < (ioq.HistCfg.mk 1 [0] [3] [3]).hist_max.getD d 0) ∧
      (ioq.build_histogram_from_timeseries [[0, 1, 2], [1/2, 3/2, 7/2]]
          [true, true, true] (ioq.HistCfg.mk 1 [0] [3] [3])).bins.sum =
        ((ioq.build_histogram_from_timeseries [[0, 1, 2], [1/2, 3/2, 7/2]]
          [true, true, true] (ioq.HistCfg.mk 1 [0] [3] [3])).num_points : ℚ) ∧
      (ioq.build_histogram_from_timeseries [[0, 1, 2], [1/2, 3/2, 7/2]]
          [true, true, true] (ioq.HistCfg.mk 1 [0] [3] [3])).num_points =
        (((List.range ((([[0, 1, 2], [(1 : ℚ)/2, 3/2, 7/2]] : List (List ℚ)).getD 0 []).length)).filter
            (fun i => ([true, true, true] : List Bool).getD i false)).filter
          (fun i => ioq.is_in_hist_boundaries
            (((List.range ((ioq.HistCfg.mk 1 [0] [3] [3]).dimens + 1)).map
              (fun j => (([[0, 1, 2], [(1 : ℚ)/2, 3/2, 7/2]] : List (List ℚ)).getD j []).getD i 0)).drop 1)
            (ioq.HistCfg.mk 1 [0] [3] [3]))).length) :=
  ⟨⟨fun d hd => by
      have hd1 : d < 1 := hd
      have hd0 : d = 0 := by omega
      subst hd0; norm_num,
    fun d hd => by
      have hd1 : d < 1 := hd
      have hd0 : d = 0 := by omega
      subst hd0; norm_num,
    rfl⟩,
    c9_histogram_halfopen [[0, 1, 2], [1/2, 3/2, 7/2]] [true, true, true]
      (ioq.HistCfg.mk 1 [0] [3] [3])
      (fun d hd => by
        have hd1 : d < 1 := hd
        have hd0 : d = 0 := by omega
        subst hd0; norm_num)
      (fun d hd => by
        have hd1 : d < 1 := hd
        have hd0 : d = 0 := by omega
        subst hd0; norm_num)
      rfl⟩

section SolverLemmas

open scoped Classical

theorem whamLoop_succ (ds : wham.Dataset) (tol : ℝ) (fuel it : ℕ) (conv : Prop)
    (F P Fp : List ℝ) :
    wham.whamLoop ds tol (fuel + 1) it conv F P Fp =
      if conv then (it, F, P, Fp)
      else
        wham.whamLoop ds tol fuel (it + 1)
          (if (it + 1) % 10 = 0 then
            wham.is_converged (F.map (wham.fkT ds))
              (((wham.perform_wham_iteration ds F).2).map (wham.fkT ds)) tol
          else False)
          (wham.perform_wham_iteration ds F).2 (wham.perform_wham_iteration ds F).1 F :=
  rfl

theorem whamLoop_true (ds : wham.Dataset) (tol : ℝ) (fuel it : ℕ)
    (F P Fp : List ℝ) :
    wham.whamLoop ds tol fuel it True F P Fp = (it, F, P, Fp) := by
  cases fuel with
  | zero => rfl
  | succ fuel => rw [whamLoop_succ, if_pos trivial]

theorem exitIter_succ (ds : wham.Dataset) (tol : ℝ) (fuel it : ℕ) :
    wham.exitIter ds tol (fuel + 1) it =
      if wham.chkP ds tol (it + 1) then it + 1
      else wham.exitIter ds tol fuel (it + 1) :=
  rfl

theorem exitIter_le (ds : wham.Dataset) (tol : ℝ) :
    ∀ fuel it, wham.exitIter ds tol fuel it ≤ it + fuel := by
  intro fuel
  induction fuel with
  | zero => intro it; exact le_refl it
  | succ fuel ih =>
      intro it
      rw [exitIter_succ]
      by_cases h : wham.chkP ds tol (it + 1)
      · rw [if_pos h]; omega
      · rw [if_neg h]
        have := ih (it + 1)
        omega

theorem exitIter_ge (ds : wham.Dataset) (tol : ℝ) :
    ∀ fuel it, it ≤ wham.exitIter ds tol fuel it := by
  intro fuel
  induction fuel with
  | zero => intro it; exact le_refl it
  | succ fuel ih =>
      intro it
      rw [exitIter_succ]
      by_cases h : wham.chkP ds tol (it + 1)
      · rw [if_pos h]; omega
      · rw [if_neg h]
        have := ih (it + 1)
        omega

theorem exitIter_spec (ds : wham.Dataset) (tol : ℝ) :
    ∀ fuel it, wham.exitIter ds tol fuel it = it + fuel ∨
      (wham.chkP ds tol (wham.exitIter ds tol fuel it) ∧
        it < wham.exitIter ds tol fuel it) := by
  intro fuel
  induction fuel with
  | zero => intro it; left; simp [wham.exitIter]
  | succ fuel ih =>
      intro it
      rw [exitIter_succ]
      by_cases h : wham.chkP ds tol (it + 1)
      · right
        rw [if_pos h]
        exact ⟨h, by omega⟩
      · rw [if_neg h]
        rcases ih (it + 1) with heq | ⟨hchk, hlt⟩
        · left; omega
        · right
          exact ⟨hchk, by omega⟩

theorem exitIter_min (ds : wham.Dataset) (tol : ℝ) :
    ∀ fuel it k, it < k → k ≤ it + fuel → wham.chkP ds tol k →
      wham.exitIter ds tol fuel it ≤ k := by
  intro fuel
  induction fuel with
  | zero => intro it k h1 h2 _; omega
  | succ fuel ih =>
      intro it k h1 h2 hk
      rw [exitIter_succ]
      by_cases h : wham.chkP ds tol (it + 1)
      · rw [if_pos h]; omega
      · rw [if_neg h]
        have hne : k ≠ it + 1 := fun he => h (he ▸ hk)
        exact ih (it + 1) k (by omega) (by omega) hk

theorem loop_char (ds : wham.Dataset) (tol : ℝ) :
    ∀ fuel it (Fp₀ : List ℝ),
      wham.whamLoop ds tol fuel it False (wham.Fseq ds it) (wham.Pseq ds it) Fp₀ =
        (wham.exitIter ds tol fuel it,
          wham.Fseq ds (wham.exitIter ds tol fuel it),
          wham.Pseq ds (wham.exitIter ds tol fuel it),
          if fuel = 0 then Fp₀ else wham.Fseq ds (wham.exitIter ds tol fuel it - 1)) := by
  intro fuel
  induction fuel with
  | zero =>
      intro it Fp₀
      simp [wham.whamLoop, wham.exitIter]
  | succ fuel ih =>
      intro it Fp₀
      rw [whamLoop_succ, if_neg not_false]
      have hP : (wham.perform_wham_iteration ds (wham.Fseq ds it)).1 =
          wham.Pseq ds (it + 1) := rfl
      have hF : (wham.perform_wham_iteration ds (wham.Fseq ds it)).2 =
          wham.Fseq ds (it + 1) := rfl
      rw [hP, hF]
      by_cases hc : wham.chkP ds tol (it + 1)
      · have hcond : (if (it + 1) % 10 = 0 then
            wham.is_converged ((wham.Fseq ds it).map (wham.fkT ds))
              ((wham.Fseq ds (it + 1)).map (wham.fkT ds)) tol
          else False) = True := by
          rw [if_pos hc.1]
          have : wham.convCrit ds tol (it + 1) := hc.2
          rw [wham.convCrit] at this
          simp only [Nat.add_sub_cancel] at this
          exact eq_true this
        rw [hcond, whamLoop_true, exitIter_succ, if_pos hc]
        simp
      · have hcond : (if (it + 1) % 10 = 0 then
            wham.is_converged ((wham.Fseq ds it).map (wham.fkT ds))
              ((wham.Fseq ds (it + 1)).map (wham.fkT ds)) tol
          else False) = False := by
          by_cases h10 : (it + 1) % 10 = 0
          · rw [if_pos h10]
            apply eq_false
            intro hconv
            apply hc
            refine ⟨h10, ?_⟩
            rw [wham.convCrit]
            simpa using hconv
          · rw [if_neg h10]
        rw [hcond, ih (it + 1) (wham.Fseq ds it), exitIter_succ, if_neg hc]
        rcases Nat.eq_zero_or_pos fuel with rfl | hf
        · simp [wham.exitIter]
        · have h0 : ¬ (fuel = 0) := by omega
          have h1 : ¬ (fuel + 1 = 0) := by omega
          rw [if_neg h0, if_neg h1]

end SolverLemmas

section SolverCharacterization

theorem perform_wham_eq (cfg : wham.Config) (ds : wham.Dataset)
    (hM : 1 ≤ cfg.max_iterations) :
    wham.perform_wham cfg ds =
      if wham.exitIter ds cfg.tolerance cfg.max_iterations 0 = cfg.max_iterations
      then none
      else some
        ((wham.Pseq ds (wham.exitIter ds cfg.tolerance cfg.max_iterations 0)).map
          (fun p => p /
            (wham.Pseq ds (wham.exitIter ds cfg.tolerance cfg.max_iterations 0)).sum),
          wham.Fseq ds (wham.exitIter ds cfg.tolerance cfg.max_iterations 0),
          wham.Fseq ds (wham.exitIter ds cfg.tolerance cfg.max_iterations 0 - 1)) := by
  have h0 : List.replicate ds.num_windows (1 : ℝ) = wham.Fseq ds 0 := rfl
  have h1 : List.replicate ds.num_bins (0 : ℝ) = wham.Pseq ds 0 := rfl
  rw [wham.perform_wham]
  simp only [h0, h1, loop_char ds cfg.tolerance cfg.max_iterations 0
    (List.replicate ds.num_windows 0)]
  rw [if_neg (by omega : ¬ (cfg.max_iterations = 0))]

end SolverCharacterization

/-- C2 (amended): `perform_wham` returns `Ok` exactly when a convergence
check passes at an iteration strictly below `max_iterations`: the checks
run at iterations `k ≡ 0 (mod 10)` on the trajectory of `F` vectors, and
a check that first passes exactly at `k = max_iterations` still produces
the fatal convergence error, because the error test is
`iteration == max_iterations` rather than `!converged`. -/
theorem c2_ok_iff_converged_early (cfg : wham.Config) (ds : wham.Dataset) :
    (∃ out, wham.perform_wham cfg ds = some out) ↔
    ∃ k, 0 < k ∧ k < cfg.max_iterations ∧ k % 10 = 0 ∧
      wham.convCrit ds cfg.tolerance k := by
  rcases Nat.eq_zero_or_pos cfg.max_iterations with hM | hM
  · constructor
    · intro ⟨out, hout⟩
      rw [wham.perform_wham] at hout
      have hloop : wham.whamLoop ds cfg.tolerance cfg.max_iterations 0 False
          (List.replicate ds.num_windows 1) (List.replicate ds.num_bins 0)
          (List.replicate ds.num_windows 0) =
          (0, List.replicate ds.num_windows 1, List.replicate ds.num_bins 0,
            List.replicate ds.num_windows 0) := by
        rw [hM]; rfl
      rw [hloop] at hout
      simp only [hM] at hout
      simp at hout
    · intro ⟨k, hk1, hk2, _⟩
      omega
  · rw [perform_wham_eq cfg ds hM]
    constructor
    · intro ⟨out, hout⟩
      by_cases hE : wham.exitIter ds cfg.tolerance cfg.max_iterations 0 =
          cfg.max_iterations
      · rw [if_pos hE] at hout; simp at hout
      · have hle := exitIter_le ds cfg.tolerance cfg.max_iterations 0
        rcases exitIter_spec ds cfg.tolerance cfg.max_iterations 0 with heq | ⟨hchk, hlt⟩
        · exact absurd (by omega : wham.exitIter ds cfg.tolerance cfg.max_iterations 0 =
            cfg.max_iterations) hE
        · exact ⟨wham.exitIter ds cfg.tolerance cfg.max_iterations 0,
            hlt, by omega, hchk.1, hchk.2⟩
    · intro ⟨k, hk1, hk2, hk10, hkc⟩
      have hmin := exitIter_min ds cfg.tolerance cfg.max_iterations 0 k hk1
        (by omega) ⟨hk10, hkc⟩
      rw [if_neg (by omega : ¬ (wham.exitIter ds cfg.tolerance cfg.max_iterations 0 =
        cfg.max_iterations))]
      exact ⟨_, rfl⟩

section FixtureLemmas

theorem range_one_eq : List.range 1 = [0] := rfl

theorem sum_map_div (l : List ℝ) (c : ℝ) :
    (l.map (fun x => x / c)).sum = l.sum / c := by
  induction l with
  | nil => simp
  | cons a t ih => simp [List.sum_cons, ih, add_div]

theorem step_unit : wham.perform_wham_iteration dsUnit [1] = ([1], [1]) := by
  rw [wham.perform_wham_iteration]
  have hbin : wham.calc_bin_probability 0 dsUnit [1] = 1 := by
    rw [wham.calc_bin_probability]
    simp [dsUnit, wham.Dataset.get_weighted_bin_count, wham.Dataset.get_bias,
      Fq64.Fq.fqsum, range_one_eq]
  have hP : (List.range dsUnit.num_bins).map
      (fun bin => wham.calc_bin_probability bin dsUnit [1]) = [1] := by
    have : dsUnit.num_bins = 1 := rfl
    rw [this, range_one_eq, List.map_cons, List.map_nil, hbin]
  rw [hP]
  have hw : wham.calc_window_F 0 dsUnit [1] = 1 := by
    rw [wham.calc_window_F]
    simp [dsUnit, wham.Dataset.get_bias, range_one_eq]
  have hF : (List.range dsUnit.num_windows).map
      (fun window => wham.calc_window_F window dsUnit [1]) = [1] := by
    have : dsUnit.num_windows = 1 := rfl
    rw [this, range_one_eq, List.map_cons, List.map_nil, hw]
  rw [hF]

theorem Fseq_unit : ∀ n, wham.Fseq dsUnit n = [1] := by
  intro n
  induction n with
  | zero => rfl
  | succ n ih =>
      show (wham.perform_wham_iteration dsUnit (wham.Fseq dsUnit n)).2 = [1]
      rw [ih, step_unit]

theorem Pseq_unit : ∀ n, 1 ≤ n → wham.Pseq dsUnit n = [1] := by
  intro n hn
  obtain ⟨m, rfl⟩ : ∃ m, n = m + 1 := ⟨n - 1, by omega⟩
  show (wham.perform_wham_iteration dsUnit (wham.Fseq dsUnit m)).1 = [1]
  rw [Fseq_unit, step_unit]

theorem convCrit_unit (k : ℕ) (hk1 : 1 ≤ k) : wham.convCrit dsUnit 0 k := by
  rw [wham.convCrit, Fseq_unit, Fseq_unit, wham.is_converged]
  intro ⟨p, hp, habs⟩
  have hkT : dsUnit.kT = 1 := rfl
  simp only [wham.fkT, hkT, List.map_cons, List.map_nil, Real.log_one,
    List.zip_cons_cons, List.zip_nil_right, List.mem_singleton] at hp
  rw [hp] at habs
  norm_num at habs

theorem exitIter_unit (fuel : ℕ) (h1 : 10 ≤ fuel) :
    wham.exitIter dsUnit 0 fuel 0 = 10 := by
  have hchk10 : wham.chkP dsUnit 0 10 := ⟨by norm_num, convCrit_unit 10 (by norm_num)⟩
  have hmin := exitIter_min dsUnit 0 fuel 0 10 (by norm_num) (by omega) hchk10
  rcases exitIter_spec dsUnit 0 fuel 0 with heq | ⟨hchk, hlt⟩
  · omega
  · have hge := exitIter_ge dsUnit 0 fuel 0
    have h10 := hchk.1
    omega

theorem step_emptyH (F : List ℝ) :
    wham.perform_wham_iteration dsEmptyH F = ([0], [0]) := by
  rw [wham.perform_wham_iteration]
  have hbin : wham.calc_bin_probability 0 dsEmptyH F = 0 := by
    rw [wham.calc_bin_probability]
    have hnum : wham.Dataset.get_weighted_bin_count dsEmptyH 0 = 0 := by
      simp [dsEmptyH, wham.Dataset.get_weighted_bin_count, range_one_eq]
    simp only [hnum, zero_div]
  have hP : (List.range dsEmptyH.num_bins).map
      (fun bin => wham.calc_bin_probability bin dsEmptyH F) = [0] := by
    have : dsEmptyH.num_bins = 1 := rfl
    rw [this, range_one_eq, List.map_cons, List.map_nil, hbin]
  rw [hP]
  have hw : wham.calc_window_F 0 dsEmptyH [0] = 0 := by
    rw [wham.calc_window_F]
    simp [dsEmptyH, wham.Dataset.get_bias, range_one_eq]
  have hF : (List.range dsEmptyH.num_windows).map
      (fun window => wham.calc_window_F window dsEmptyH [0]) = [0] := by
    have : dsEmptyH.num_windows = 1 := rfl
    rw [this, range_one_eq, List.map_cons, List.map_nil, hw]
  rw [hF]

theorem Fseq_emptyH (n : ℕ) (hn : 1 ≤ n) : wham.Fseq dsEmptyH n = [0] := by
  obtain ⟨m, rfl⟩ : ∃ m, n = m + 1 := ⟨n - 1, by omega⟩
  show (wham.perform_wham_iteration dsEmptyH (wham.Fseq dsEmptyH m)).2 = [0]
  rw [step_emptyH]

theorem Pseq_emptyH (n : ℕ) (hn : 1 ≤ n) : wham.Pseq dsEmptyH n = [0] := by
  obtain ⟨m, rfl⟩ : ∃ m, n = m + 1 := ⟨n - 1, by omega⟩
  show (wham.perform_wham_iteration dsEmptyH (wham.Fseq dsEmptyH m)).1 = [0]
  rw [step_emptyH]

theorem convCrit_emptyH (k : ℕ) (hk : 2 ≤ k) : wham.convCrit dsEmptyH 0 k := by
  rw [wham.convCrit, Fseq_emptyH (k - 1) (by omega), Fseq_emptyH k (by omega),
    wham.is_converged]
  intro ⟨p, hp, habs⟩
  have hkT : dsEmptyH.kT = 1 := rfl
  simp only [wham.fkT, hkT, List.map_cons, List.map_nil, Real.log_zero,
    List.zip_cons_cons, List.zip_nil_right, List.mem_singleton] at hp
  rw [hp] at habs
  norm_num at habs

theorem exitIter_emptyH (fuel : ℕ) (h1 : 10 ≤ fuel) :
    wham.exitIter dsEmptyH 0 fuel 0 = 10 := by
  have hchk10 : wham.chkP dsEmptyH 0 10 :=
    ⟨by norm_num, convCrit_emptyH 10 (by norm_num)⟩
  have hmin := exitIter_min dsEmptyH 0 fuel 0 10 (by norm_num) (by omega) hchk10
  rcases exitIter_spec dsEmptyH 0 fuel 0 with heq | ⟨hchk, hlt⟩
  · omega
  · have hge := exitIter_ge dsEmptyH 0 fuel 0
    have h10 := hchk.1
    omega

end FixtureLemmas

/-- C2 (counterexample): on the unit dataset every check passes, so the
criterion is met at iteration `10 ≤ max_iterations = 10`; the claim then
demands `Ok`, but `perform_wham` returns the convergence error because
the loop exits with `iteration == max_iterations`. -/
theorem c2_counterexample :
    (∃ k, 0 < k ∧ k ≤ cfg10.max_iterations ∧ k % 10 = 0 ∧
      wham.convCrit dsUnit cfg10.tolerance k) ∧
    wham.perform_wham cfg10 dsUnit = none := by
  have hM : cfg10.max_iterations = 10 := rfl
  have htol : cfg10.tolerance = 0 := rfl
  constructor
  · exact ⟨10, by norm_num, by rw [hM], by norm_num,
      by rw [htol]; exact convCrit_unit 10 (by norm_num)⟩
  · rw [perform_wham_eq cfg10 dsUnit (by rw [hM]; norm_num)]
    rw [if_pos]
    rw [htol, hM]
    exact exitIter_unit 10 (le_refl 10)

/-- C3 (amended): whenever `perform_wham` returns `Ok` and the returned
probability vector is not identically zero (equivalently, the
pre-normalisation sum was nonzero), the vector sums to exactly `1` —
hence certainly within `1e−12`.  (When every pre-normalisation entry is
zero, the normalising division by `P_sum = 0` leaves the vector
unnormalised; see the counterexample.) -/
theorem c3_normalised_sum (cfg : wham.Config) (ds : wham.Dataset)
    (P F Fp : List ℝ) (h : wham.perform_wham cfg ds = some (P, F, Fp))
    (hnz : ∃ p ∈ P, p ≠ 0) : P.sum = 1 := by
  rw [wham.perform_wham] at h
  set r := wham.whamLoop ds cfg.tolerance cfg.max_iterations 0 False
    (List.replicate ds.num_windows 1) (List.replicate ds.num_bins 0)
    (List.replicate ds.num_windows 0) with hr
  by_cases hit : r.1 = cfg.max_iterations
  · rw [if_pos hit] at h
    simp at h
  · rw [if_neg hit] at h
    have hP : P = r.2.2.1.map (fun p => p / r.2.2.1.sum) := by
      have := congrArg (fun o => Option.map (fun t => t.1) o) h
      simp at this
      exact this.symm
    by_cases hS : r.2.2.1.sum = 0
    · exfalso
      obtain ⟨p, hp, hpne⟩ := hnz
      rw [hP] at hp
      obtain ⟨q, _, rfl⟩ := List.mem_map.mp hp
      rw [hS, div_zero] at hpne
      exact hpne rfl
    · rw [hP, sum_map_div, div_self hS]

/-- C3 (counterexample): on the dataset with an empty histogram the
solver "converges" (all convergence deltas vanish) and returns `Ok`,
but every probability is `0`: the returned vector sums to `0`, not
within `1e−12` of `1`.  (In the f64 code the same run returns NaN
entries, which also violate the bound.) -/
theorem c3_counterexample :
    wham.perform_wham cfg20 dsEmptyH = some ([0], [0], [0]) ∧
    ¬ (|List.sum [(0 : ℝ)] - 1| ≤ 1 / 10 ^ 12) := by
  have hM : cfg20.max_iterations = 20 := rfl
  have htol : cfg20.tolerance = 0 := rfl
  constructor
  · rw [perform_wham_eq cfg20 dsEmptyH (by rw [hM]; norm_num)]
    rw [htol, hM, exitIter_emptyH 20 (by norm_num)]
    rw [if_neg (by norm_num)]
    rw [Pseq_emptyH 10 (by norm_num), Fseq_emptyH 10 (by norm_num),
      Fseq_emptyH (10 - 1) (by norm_num)]
    simp
  · simp only [List.sum_cons, List.sum_nil]
    norm_num

/-- C3 (witness): the amended statement evaluated on the unit dataset
with `max_iterations = 11`: the solver converges at the check of
iteration 10 and returns `P = [1]`, which sums to `1`. -/
theorem c3_witness :
    wham.perform_wham cfg11 dsUnit = some ([1], [1], [1]) ∧
    List.sum [(1 : ℝ)] = 1 := by
  have hM : cfg11.max_iterations = 11 := rfl
  have htol : cfg11.tolerance = 0 := rfl
  have hcomp : wham.perform_wham cfg11 dsUnit = some ([1], [1], [1]) := by
    rw [perform_wham_eq cfg11 dsUnit (by rw [hM]; norm_num)]
    rw [htol, hM, exitIter_unit 11 (by norm_num)]
    rw [if_neg (by norm_num)]
    rw [Pseq_unit 10 (by norm_num), Fseq_unit 10, Fseq_unit (10 - 1)]
    norm_num
  exact ⟨hcomp,
    c3_normalised_sum cfg11 dsUnit [1] [1] [1] hcomp
      ⟨1, List.mem_singleton.mpr rfl, one_ne_zero⟩⟩

section ReweightLemmas

theorem getD_replicate_lt {α : Type _} (n i : ℕ) (a d : α) (h : i < n) :
    (List.replicate n a).getD i d = a := by
  rw [List.getD_eq_getElem _ _ (by simpa using h)]
  simp

end ReweightLemmas

/-- C7: replacing unit weights by the uniform weights `1/num_windows`
scales both the numerator and the denominator of the first WHAM
equation by the same factor `1/num_windows`, which cancels:
`calc_bin_probability` is unchanged, every WHAM iteration produces the
same `P` and `F`, and `perform_wham` (hence the final normalised `P`)
is identical. -/
theorem c7_uniform_reweighting (cfg : wham.Config) (ds : wham.Dataset)
    (hw : ds.weights = List.replicate ds.num_windows 1)
    (hl : ds.histograms.length = ds.num_windows)
    (hn : 0 < ds.num_windows) :
    (∀ bin F, wham.calc_bin_probability bin
        { ds with weights := List.replicate ds.num_windows (1 / (ds.num_windows : ℝ)) } F =
      wham.calc_bin_probability bin ds F) ∧
    (∀ F, wham.perform_wham_iteration
        { ds with weights := List.replicate ds.num_windows (1 / (ds.num_windows : ℝ)) } F =
      wham.perform_wham_iteration ds F) ∧
    wham.perform_wham cfg
        { ds with weights := List.replicate ds.num_windows (1 / (ds.num_windows : ℝ)) } =
      wham.perform_wham cfg ds := by
  set c : ℝ := 1 / (ds.num_windows : ℝ) with hc
  set ds' : wham.Dataset := { ds with weights := List.replicate ds.num_windows c }
    with hds'
  have hcne : c ≠ 0 := by
    rw [hc]
    exact one_div_ne_zero (Nat.cast_ne_zero.mpr (by omega))
  have hcalc : ∀ bin F, wham.calc_bin_probability bin ds' F =
      wham.calc_bin_probability bin ds F := by
    intro bin F
    have hnum : wham.Dataset.get_weighted_bin_count ds' bin =
        c * wham.Dataset.get_weighted_bin_count ds bin := by
      rw [wham.Dataset.get_weighted_bin_count, wham.Dataset.get_weighted_bin_count,
        ← List.sum_map_mul_left]
      apply congrArg List.sum
      apply List.map_congr_left
      intro idx hidx
      rw [List.mem_range] at hidx
      have hidx' : idx < ds.num_windows := by
        rw [← hl]
        simpa using hidx
      have h1 : ds'.weights.getD idx 0 = c := getD_replicate_lt _ _ _ _ hidx'
      have h2 : ds.weights.getD idx 0 = 1 := by
        rw [hw]; exact getD_replicate_lt _ _ _ _ hidx'
      show ds'.weights.getD idx 0 * _ = c * (ds.weights.getD idx 0 * _)
      rw [h1, h2]
      ring
    have hden : ((List.range ds'.histograms.length).map (fun window =>
          (ds'.weights.getD window 0 *
            ((ds'.histograms.getD window default).num_points : ℝ)) *
            ds'.get_bias bin window * F.getD window 0)).sum =
        c * ((List.range ds.histograms.length).map (fun window =>
          (ds.weights.getD window 0 *
            ((ds.histograms.getD window default).num_points : ℝ)) *
            ds.get_bias bin window * F.getD window 0)).sum := by
      rw [← List.sum_map_mul_left]
      apply congrArg List.sum
      apply List.map_congr_left
      intro idx hidx
      rw [List.mem_range] at hidx
      have hidx' : idx < ds.num_windows := by
        rw [← hl]
        simpa using hidx
      have h1 : ds'.weights.getD idx 0 = c := getD_replicate_lt _ _ _ _ hidx'
      have h2 : ds.weights.getD idx 0 = 1 := by
        rw [hw]; exact getD_replicate_lt _ _ _ _ hidx'
      have h3 : ds'.get_bias bin idx = ds.get_bias bin idx := rfl
      rw [h1, h2, h3]
      ring
    rw [wham.calc_bin_probability, wham.calc_bin_probability]
    simp only [hnum, hden]
    exact mul_div_mul_left _ _ hcne
  have hiter : ∀ F, wham.perform_wham_iteration ds' F =
      wham.perform_wham_iteration ds F := by
    intro F
    rw [wham.perform_wham_iteration, wham.perform_wham_iteration]
    have hPmap : (List.range ds'.num_bins).map
        (fun bin => wham.calc_bin_probability bin ds' F) =
        (List.range ds.num_bins).map
        (fun bin => wham.calc_bin_probability bin ds F) := by
      apply List.map_congr_left
      intro bin _
      exact hcalc bin F
    rw [hPmap]
    rfl
  have hloop : ∀ fuel it conv F P Fp, wham.whamLoop ds' cfg.tolerance fuel it conv F P Fp =
      wham.whamLoop ds cfg.tolerance fuel it conv F P Fp := by
    intro fuel
    induction fuel with
    | zero => intro it conv F P Fp; rfl
    | succ fuel ih =>
        intro it conv F P Fp
        rw [whamLoop_succ, whamLoop_succ]
        by_cases hconv : conv
        · rw [if_pos hconv, if_pos hconv]
        · rw [if_neg hconv, if_neg hconv, hiter F]
          exact ih _ _ _ _ _
  refine ⟨hcalc, hiter, ?_⟩
  rw [wham.perform_wham, wham.perform_wham]
  rw [hloop]

/-- C7 (witness): the reweighting equivalence evaluated on the unit
dataset. -/
theorem c7_witness :
    (dsUnit.weights = List.replicate dsUnit.num_windows 1 ∧
      dsUnit.histograms.length = dsUnit.num_windows ∧ 0 < dsUnit.num_windows) ∧
    wham.perform_wham cfg11
        { dsUnit with
          weights := List.replicate dsUnit.num_windows (1 / (dsUnit.num_windows : ℝ)) } =
      wham.perform_wham cfg11 dsUnit :=
  ⟨⟨rfl, rfl, Nat.one_pos⟩,
    (c7_uniform_reweighting cfg11 dsUnit rfl rfl Nat.one_pos).2.2⟩

section FreeEnergyLemmas

open freeE
open scoped Classical

theorem xentry_pos (kT p : ℝ) (hp : 0 < p) :
    Xt.xmul (Xt.fin (-kT)) (Xt.xlog (Xt.fin p)) = Xt.fin (-kT * Real.log p) := by
  rw [Xt.xlog, if_pos hp, Xt.xmul]

theorem xentry_zero (kT : ℝ) (hkT : 0 < kT) :
    Xt.xmul (Xt.fin (-kT)) (Xt.xlog (Xt.fin 0)) = Xt.pinf := by
  rw [Xt.xlog, if_neg (lt_irrefl 0), if_pos rfl, Xt.xmul,
    if_neg (by linarith : ¬ (-kT > 0)), if_pos (by linarith : -kT < 0)]

theorem fold_min_spec :
    ∀ (A : List Xt), (∀ a ∈ A, (∃ x, a = Xt.fin x) ∨ a = Xt.pinf) →
      ∀ c₀ : ℝ, ∃ c : ℝ,
        A.foldl (fun minimum free_e =>
          if Xt.xlt free_e minimum then free_e else minimum) (Xt.fin c₀) = Xt.fin c ∧
        c ≤ c₀ ∧ (∀ x : ℝ, Xt.fin x ∈ A → c ≤ x) ∧ (c = c₀ ∨ Xt.fin c ∈ A) := by
  intro A
  induction A with
  | nil =>
      intro _ c₀
      exact ⟨c₀, rfl, le_refl _, by simp, Or.inl rfl⟩
  | cons a rest ih =>
      intro hA c₀
      rcases hA a (List.mem_cons_self a rest) with ⟨x, rfl⟩ | rfl
      · by_cases hx : x < c₀
        · have hstep : (if Xt.xlt (Xt.fin x) (Xt.fin c₀) then Xt.fin x
              else Xt.fin c₀) = Xt.fin x := by
            rw [if_pos]
            exact hx
          obtain ⟨c, hfold, hle, hlb, hmem⟩ :=
            ih (fun b hb => hA b (List.mem_cons_of_mem _ hb)) x
          refine ⟨c, ?_, by linarith, ?_, ?_⟩
          · rw [List.foldl_cons, hstep]
            exact hfold
          · intro y hy
            rcases List.mem_cons.mp hy with hy | hy
            · have hxy : y = x := by simpa using hy
              rw [hxy]
              exact hle
            · exact hlb y hy
          · rcases hmem with rfl | hmem
            · exact Or.inr (List.mem_cons_self _ _)
            · exact Or.inr (List.mem_cons_of_mem _ hmem)
        · have hstep : (if Xt.xlt (Xt.fin x) (Xt.fin c₀) then Xt.fin x
              else Xt.fin c₀) = Xt.fin c₀ := by
            rw [if_neg]
            exact hx
          obtain ⟨c, hfold, hle, hlb, hmem⟩ :=
            ih (fun b hb => hA b (List.mem_cons_of_mem _ hb)) c₀
          refine ⟨c, ?_, hle, ?_, ?_⟩
          · rw [List.foldl_cons, hstep]
            exact hfold
          · intro y hy
            rcases List.mem_cons.mp hy with hy | hy
            · have hxy : y = x := by simpa using hy
              rw [hxy]
              push_neg at hx
              linarith
            · exact hlb y hy
          · rcases hmem with rfl | hmem
            · exact Or.inl rfl
            · exact Or.inr (List.mem_cons_of_mem _ hmem)
      · have hstep : (if Xt.xlt Xt.pinf (Xt.fin c₀) then Xt.pinf
            else Xt.fin c₀) = Xt.fin c₀ := by
          rw [if_neg]
          exact not_false
        obtain ⟨c, hfold, hle, hlb, hmem⟩ :=
          ih (fun b hb => hA b (List.mem_cons_of_mem _ hb)) c₀
        refine ⟨c, ?_, hle, ?_, ?_⟩
        · rw [List.foldl_cons, hstep]
          exact hfold
        · intro y hy
          rcases List.mem_cons.mp hy with hy | hy
          · exact absurd hy (by simp)
          · exact hlb y hy
        · rcases hmem with rfl | hmem
          · exact Or.inl rfl
          · exact Or.inr (List.mem_cons_of_mem _ hmem)

end FreeEnergyLemmas

/-- C4: the free-energy projection.  For every probability vector with
nonnegative entries, at least one of them positive (and, reflecting the
f64 range of the code's `f64::MAX` minimum sentinel, every finite
`−kT·ln p` below `f64::MAX` — automatic for every representable double),
`calc_free_energy` computes `A[b] = −kT·ln P[b] − A_min` on the positive
bins with `A_min = min_b (−kT·ln P[b])`, maps `P[b] = 0` to `+∞`
preserved in the output, and the minimum of the result is exactly `0`. -/
theorem c4_free_energy_projection (kT : ℝ) (P : List ℝ)
    (hkT : 0 < kT) (hP0 : ∀ p ∈ P, 0 ≤ p) (hpos : ∃ p ∈ P, 0 < p)
    (hrange : ∀ p ∈ P, 0 < p → -kT * Real.log p < freeE.f64MAX) :
    ∃ Amin : ℝ,
      (∃ p ∈ P, 0 < p ∧ Amin = -kT * Real.log p) ∧
      (∀ p ∈ P, 0 < p → Amin ≤ -kT * Real.log p) ∧
      (∀ i, i < P.length → 0 < P.getD i 0 →
        (freeE.calc_free_energy kT P).getD i freeE.Xt.nan =
          freeE.Xt.fin (-kT * Real.log (P.getD i 0) - Amin)) ∧
      (∀ i, i < P.length → P.getD i 0 = 0 →
        (freeE.calc_free_energy kT P).getD i freeE.Xt.nan = freeE.Xt.pinf) ∧
      freeE.Xt.fin 0 ∈ freeE.calc_free_energy kT P ∧
      (∀ a ∈ freeE.calc_free_energy kT P, ¬ freeE.Xt.xlt a (freeE.Xt.fin 0)) := by
  classical
  have hclass : ∀ a ∈ P.map (fun p => freeE.Xt.xmul (freeE.Xt.fin (-kT))
      (freeE.Xt.xlog (freeE.Xt.fin p))),
      (∃ x, a = freeE.Xt.fin x) ∨ a = freeE.Xt.pinf := by
    intro a ha
    obtain ⟨p, hp, rfl⟩ := List.mem_map.mp ha
    rcases lt_or_eq_of_le (hP0 p hp) with hppos | hpzero
    · exact Or.inl ⟨-kT * Real.log p, xentry_pos kT p hppos⟩
    · right
      rw [← hpzero]
      exact xentry_zero kT hkT
  obtain ⟨c, hfold, hcle, hlb, hcm⟩ := fold_min_spec
    (P.map (fun p => freeE.Xt.xmul (freeE.Xt.fin (-kT))
      (freeE.Xt.xlog (freeE.Xt.fin p)))) hclass freeE.f64MAX
  obtain ⟨p₀, hp₀mem, hp₀pos⟩ := hpos
  have hfinp₀ : freeE.Xt.fin (-kT * Real.log p₀) ∈
      P.map (fun p => freeE.Xt.xmul (freeE.Xt.fin (-kT))
        (freeE.Xt.xlog (freeE.Xt.fin p))) :=
    List.mem_map.mpr ⟨p₀, hp₀mem, xentry_pos kT p₀ hp₀pos⟩
  have hcltMAX : c < freeE.f64MAX :=
    lt_of_le_of_lt (hlb _ hfinp₀) (hrange p₀ hp₀mem hp₀pos)
  have hcmem : freeE.Xt.fin c ∈
      P.map (fun p => freeE.Xt.xmul (freeE.Xt.fin (-kT))
        (freeE.Xt.xlog (freeE.Xt.fin p))) := by
    rcases hcm with rfl | h
    · exact absurd hcltMAX (lt_irrefl _)
    · exact h
  obtain ⟨pc, hpc, hpceq⟩ := List.mem_map.mp hcmem
  have hpcpos : 0 < pc := by
    rcases lt_or_eq_of_le (hP0 pc hpc) with hppos | hpzero
    · exact hppos
    · exfalso
      rw [← hpzero, xentry_zero kT hkT] at hpceq
      exact absurd hpceq (by simp)
  have hceq : c = -kT * Real.log pc := by
    rw [xentry_pos kT pc hpcpos] at hpceq
    have := hpceq
    simpa using this.symm
  have hresult : freeE.calc_free_energy kT P =
      (P.map (fun p => freeE.Xt.xmul (freeE.Xt.fin (-kT))
        (freeE.Xt.xlog (freeE.Xt.fin p)))).map
        (fun e => freeE.Xt.xsub e (freeE.Xt.fin c)) := by
    simp only [freeE.calc_free_energy]
    rw [hfold]
  refine ⟨c, ⟨pc, hpc, hpcpos, hceq⟩, ?_, ?_, ?_, ?_, ?_⟩
  · intro p hp hppos
    exact hlb _ (List.mem_map.mpr ⟨p, hp, xentry_pos kT p hppos⟩)
  · intro i hi hiP
    rw [hresult]
    have hiA : i < (P.map (fun p => freeE.Xt.xmul (freeE.Xt.fin (-kT))
        (freeE.Xt.xlog (freeE.Xt.fin p)))).length := by simpa using hi
    have hiR : i < ((P.map (fun p => freeE.Xt.xmul (freeE.Xt.fin (-kT))
        (freeE.Xt.xlog (freeE.Xt.fin p)))).map
        (fun e => freeE.Xt.xsub e (freeE.Xt.fin c))).length := by simpa using hi
    rw [List.getD_eq_getElem _ _ hiR, List.getElem_map, List.getElem_map]
    rw [List.getD_eq_getElem _ _ hi] at hiP ⊢
    rw [xentry_pos kT _ hiP, freeE.Xt.xsub]
  · intro i hi hiP
    rw [hresult]
    have hiR : i < ((P.map (fun p => freeE.Xt.xmul (freeE.Xt.fin (-kT))
        (freeE.Xt.xlog (freeE.Xt.fin p)))).map
        (fun e => freeE.Xt.xsub e (freeE.Xt.fin c))).length := by simpa using hi
    rw [List.getD_eq_getElem _ _ hiR, List.getElem_map, List.getElem_map]
    rw [List.getD_eq_getElem _ _ hi] at hiP
    rw [hiP, xentry_zero kT hkT, freeE.Xt.xsub]
  · rw [hresult]
    have : freeE.Xt.xsub (freeE.Xt.fin c) (freeE.Xt.fin c) = freeE.Xt.fin 0 := by
      rw [freeE.Xt.xsub, sub_self]
    rw [← this]
    exact List.mem_map.mpr ⟨freeE.Xt.fin c, hcmem, rfl⟩
  · intro a ha
    rw [hresult] at ha
    obtain ⟨b, hb, rfl⟩ := List.mem_map.mp ha
    rcases hclass b hb with ⟨x, rfl⟩ | rfl
    · rw [freeE.Xt.xsub, freeE.Xt.xlt]
      have := hlb x (by exact hb)
      linarith
    · rw [freeE.Xt.xsub, freeE.Xt.xlt]
      exact not_false

/-- C4 (witness): the projection applied to the concrete vector
`P = [1, 0]` with `kT = 1`: one positive bin, one empty bin. -/
theorem c4_witness :
    ((0 : ℝ) < 1 ∧ (∀ p ∈ [(1 : ℝ), 0], 0 ≤ p) ∧ (∃ p ∈ [(1 : ℝ), 0], 0 < p) ∧
      (∀ p ∈ [(1 : ℝ), 0], 0 < p → -1 * Real.log p < freeE.f64MAX)) ∧
    (∃ Amin : ℝ,
      (∃ p ∈ [(1 : ℝ), 0], 0 < p ∧ Amin = -1 * Real.log p) ∧
      (∀ p ∈ [(1 : ℝ), 0], 0 < p → Amin ≤ -1 * Real.log p) ∧
      (∀ i, i < ([(1 : ℝ), 0]).length → 0 < ([(1 : ℝ), 0]).getD i 0 →
        (freeE.calc_free_energy 1 [(1 : ℝ), 0]).getD i freeE.Xt.nan =
          freeE.Xt.fin (-1 * Real.log (([(1 : ℝ), 0]).getD i 0) - Amin)) ∧
      (∀ i, i < ([(1 : ℝ), 0]).length → ([(1 : ℝ), 0]).getD i 0 = 0 →
        (freeE.calc_free_energy 1 [(1 : ℝ), 0]).getD i freeE.Xt.nan = freeE.Xt.pinf) ∧
      freeE.Xt.fin 0 ∈ freeE.calc_free_energy 1 [(1 : ℝ), 0] ∧
      (∀ a ∈ freeE.calc_free_energy 1 [(1 : ℝ), 0],
        ¬ freeE.Xt.xlt a (freeE.Xt.fin 0))) := by
  have hrange : ∀ p ∈ [(1 : ℝ), 0], 0 < p → -1 * Real.log p < freeE.f64MAX := by
    intro p hp hppos
    rcases List.mem_cons.mp hp with rfl | hp
    · rw [Real.log_one, freeE.f64MAX]
      norm_num
    · simp only [List.mem_singleton] at hp
      rw [hp] at hppos
      norm_num at hppos
  exact ⟨⟨by norm_num, by norm_num, ⟨1, by simp, by norm_num⟩, hrange⟩,
    c4_free_energy_projection 1 [(1 : ℝ), 0] (by norm_num) (by norm_num)
      ⟨1, by simp, by norm_num⟩ hrange⟩
